import Mathlib

/-!
# Verification of the AetherFS graph layout and integrity engine

Shallow embedding of the graph integrity store (`GraphStore` in
`src/aetherfs/src/render/renderer.js`) and the force layout engine
(`ForceLayout`, the layout module shipped as `src/unnamed/part_005`).

Modelling conventions:
* JavaScript numbers are modelled as exact rationals `ℚ`.  Opaque `Math`
  library functions (`sqrt`, `atan2`, `cos`, `sin`, `PI`) are passed in as an
  explicit `MathLib` record, so theorems quantify over every possible
  implementation of them.
* Nullable JavaScript fields are `Option` values; the JavaScript truthiness
  test on a string-or-null value (`v || w`, `while (curr && curr.parentId)`)
  treats both `null`/`undefined` and the empty string as falsy, which is
  modelled by `jsFalsyStr`.  `null` used in arithmetic coerces to `0`
  (`jsNum`).
* Mutation of shared node objects is modelled by explicit state passing over
  positional lists: the node at index `i` of the output list is the node
  object at index `i` of the input list after the call.
* The JavaScript `Map` constructor keyed by id lets the *last* occurrence of
  a duplicated id win; lookups are modelled accordingly (`lastById`,
  `lastIdxOf`).
* Loops that JavaScript runs on the heap without a termination guarantee
  (the `isHidden` parent walk, BFS queue, DFS recursion) are given explicit
  fuel that dominates every terminating JavaScript run.
-/

namespace AetherFS

/-- Opaque numeric library functions used by the layout engine
(`Math.sqrt`, `Math.atan2`, `Math.cos`, `Math.sin`, `Math.PI`).
Theorems about the engine hold for every implementation. -/
structure MathLib where
  sqrt : ℚ → ℚ
  atan2 : ℚ → ℚ → ℚ
  cos : ℚ → ℚ
  sin : ℚ → ℚ
  pi : ℚ

/-- A graph node as the store and the layout engine see it: identity and
structural fields plus the simulation-owned mutable fields.  Annotation
fields `_depth`, `_vIndex`, `_vCount`, `_maxDepth`, `_visited` are stored
with their JavaScript underscore names dropped. -/
structure Node where
  id : String
  name : String := ""
  parentId : Option String := none
  x : Option ℚ := none
  y : Option ℚ := none
  vx : ℚ := 0
  vy : ℚ := 0
  fx : Option ℚ := none
  fy : Option ℚ := none
  collapsed : Bool := false
  radius : Option ℚ := none
  depth : ℤ := 0
  vIndex : ℤ := 0
  vCount : ℤ := 1
  maxDepth : ℤ := 0
  visited : Bool := false
  deriving DecidableEq, Repr

instance : Inhabited Node := ⟨{ id := "" }⟩

/-- A directed parent→child edge (`{id, source, target}`). -/
structure Edge where
  id : String := ""
  source : String
  target : String
  deriving DecidableEq, Repr

/-- JavaScript truthiness of a string-or-null value: `null`, `undefined`
and the empty string are falsy. -/
def jsFalsyStr : Option String → Bool
  | none => true
  | some s => s = ""

/-- JavaScript `v || d` on numbers: `0` is falsy. -/
def jsOr (v d : ℚ) : ℚ := if v = 0 then d else v

/-- JavaScript `v || d` on integer-valued fields. -/
def jsOrZ (v d : ℤ) : ℤ := if v = 0 then d else v

/-- JavaScript `v || d` where `v` may be `undefined` (e.g. `a._radius || 10`). -/
def jsOrOpt (v : Option ℚ) (d : ℚ) : ℚ :=
  match v with
  | none => d
  | some q => if q = 0 then d else q

/-- Numeric coercion of a nullable value (JavaScript `null` coerces to 0
in arithmetic). -/
def jsNum : Option ℚ → ℚ
  | none => 0
  | some q => q

/-- `Utils.clamp(v, lo, hi) = Math.max(lo, Math.min(hi, v))`. -/
def clampQ (v lo hi : ℚ) : ℚ := max lo (min hi v)

/-- Update the element at index `i` (identity when out of range). -/
def updAt (i : Nat) (f : α → α) : List α → List α
  | [] => []
  | a :: as =>
    match i with
    | 0 => f a :: as
    | j + 1 => a :: updAt j f as

/-- Overwrite the element at index `i`. -/
def setAt (i : Nat) (v : α) (l : List α) : List α := updAt i (fun _ => v) l

/-- Map with the element's index. -/
def mapWithIdx (f : Nat → α → α) : List α → List α :=
  go 0
where
  go : Nat → List α → List α
    | _, [] => []
    | i, a :: as => f i a :: go (i + 1) as

/- ──────────────────────────────────────────────────────────────────────
   Graph integrity store (`GraphStore` in src/aetherfs/src/render/renderer.js)
   ────────────────────────────────────────────────────────────────────── -/

/-- The node id set (`new Set(this._nodes.map(n => n.id))`). -/
def nodeIdsOf (ns : List Node) : List String := ns.map (·.id)

/-- Step 1 of `_ensureGraphIntegrity`: drop edges whose `source` or `target`
is not in the node id set. -/
def validEdges (ns : List Node) (es : List Edge) : List Edge :=
  es.filter (fun e => (nodeIdsOf ns).contains e.source && (nodeIdsOf ns).contains e.target)

/-- The deduplication key `` `${e.source}→${e.target}` ``. -/
def edgeKey (e : Edge) : String := e.source ++ "→" ++ e.target

/-- Step 2: deduplicate edges by `(source,target)` key, keeping the first
occurrence of each key (the JavaScript `edgeKeys` set is the `seen`
accumulator). -/
def dedupEdges (seen : List String) : List Edge → List Edge
  | [] => []
  | e :: rest =>
    if seen.contains (edgeKey e) then dedupEdges seen rest
    else e :: dedupEdges (edgeKey e :: seen) rest

/-- The targets of the (already deduplicated) edge list
(`new Set(this._edges.map(e => e.target))`). -/
def targetedIds (es : List Edge) : List String := es.map (·.target)

/-- Step 3: the chosen root id.  `roots.length > 0 ? roots[0].id :
(this._nodes[0]?.id || null)` — note the `|| null` makes an empty head id
collapse to `null` in the fallback branch. -/
def rootId (ns : List Node) (es : List Edge) : Option String :=
  match ns.filter (fun n => !(targetedIds es).contains n.id) with
  | r :: _ => some r.id
  | [] =>
    match ns.head? with
    | some n => if n.id = "" then none else some n.id
    | none => none

/-- The `connected` id set: the chosen root plus every endpoint of the
deduplicated edges (NOT reachability from the root). -/
def connectedIds (root : Option String) (es : List Edge) : List String :=
  (match root with
   | some r => [r]
   | none => []) ++ es.flatMap (fun e => [e.source, e.target])

/-- The dangling nodes of step 4: not in `connected` and not the root. -/
def danglingNodes (ns : List Node) (root : Option String) (es : List Edge) : List Node :=
  ns.filter (fun n =>
    !(connectedIds root es).contains n.id &&
      (match root with
       | some r => n.id ≠ r
       | none => true))

/-- Step 4 edge synthesis for one dangling node:
`const parentId = n.parentId || rootId;` then reconnect from that parent if
it is a node id, else from the root when the root is non-null. -/
def synthEdge? (ids : List String) (root : Option String) (n : Node) : Option Edge :=
  let pid : Option String := if jsFalsyStr n.parentId then root else n.parentId
  match pid with
  | some p =>
    if ids.contains p then some { id := p ++ "->" ++ n.id, source := p, target := n.id }
    else
      match root with
      | some r => some { id := r ++ "->" ++ n.id, source := r, target := n.id }
      | none => none
  | none =>
    match root with
    | some r => some { id := r ++ "->" ++ n.id, source := r, target := n.id }
    | none => none

/-- `GraphStore._ensureGraphIntegrity`: returns the repaired edge list and
the `fixed` count (dropped + deduplicated + dangling).  The node array is
never modified by the repair. -/
def ensureGraphIntegrity (ns : List Node) (es : List Edge) : List Edge × Nat :=
  let ids := nodeIdsOf ns
  let valid := validEdges ns es
  let dropped := es.length - valid.length
  let unique := dedupEdges [] valid
  let dups := valid.length - unique.length
  let root := rootId ns unique
  let dangling := danglingNodes ns root unique
  let synth := dangling.filterMap (synthEdge? ids root)
  (unique ++ synth, dropped + dups + dangling.length)

/-- Result of `loadGraph` / `refreshGraph`: the published node and edge
arrays plus the returned `{fixed}` count. -/
structure GraphResult where
  nodes : List Node
  edges : List Edge
  fixed : Nat
  deriving DecidableEq, Repr

/-- `GraphStore.loadGraph(nodes, edges)`. -/
def loadGraph (ns : List Node) (es : List Edge) : GraphResult :=
  let r := ensureGraphIntegrity ns es
  { nodes := ns, edges := r.1, fixed := r.2 }

/-- `GraphStore.refreshGraph(nodes, edges)` — same repair pass as
`loadGraph` (the `Array.isArray` guards always succeed on arrays). -/
def refreshGraph (ns : List Node) (es : List Edge) : GraphResult :=
  let r := ensureGraphIntegrity ns es
  { nodes := ns, edges := r.1, fixed := r.2 }

/-- Number of nodes with no incoming edge, the quantity the single-root
invariant speaks about. -/
def noIncomingCount (ns : List Node) (es : List Edge) : Nat :=
  (ns.filter (fun n => !(targetedIds es).contains n.id)).length

/- Concrete inputs used by counterexamples and witnesses. -/

/-- Malformed input: `R` untargeted, plus an edge `a→b` between two other
nodes.  The repair leaves it untouched. -/
def c1Nodes : List Node := [{ id := "r" }, { id := "a" }, { id := "b" }]

/-- The single edge `a→b` of the `c1Nodes` scenario. -/
def c1Edges : List Edge := [{ id := "e1", source := "a", target := "b" }]

/-- Characterization of the source of a synthesized edge, used by the amended
C2 statement and proven to agree with `synthEdge?`: the node's `parentId` is
used only when it is non-null, NON-EMPTY and an existing node id; otherwise
the chosen root is used (JavaScript `n.parentId || rootId` treats the empty
string as falsy). -/
def expectedSynthSource (ids : List String) (r : String) (n : Node) : String :=
  match n.parentId with
  | some p => if p ≠ "" ∧ ids.contains p = true then p else r
  | none => r

/-- Malformed input for C2: the node `d` has `parentId = ""`, and a node with
the empty id exists — yet the synthesized edge for `d` comes from the root. -/
def c2Nodes : List Node :=
  [{ id := "root" }, { id := "" }, { id := "d", parentId := some "" }]

/-- The spec's C2 scenario: `d` has `parentId = "root"` but no edge to it. -/
def c2ScenarioNodes : List Node :=
  [{ id := "root" }, { id := "d", parentId := some "root" }]

/-- Malformed input for C3/C10: two distinct node objects share the id `d`.
The repair synthesizes one reconnecting edge per node object, producing two
edges with the identical `(source,target)` pair `(r, d)`. -/
def c3Nodes : List Node :=
  [{ id := "r" }, { id := "d", name := "d1" }, { id := "d", name := "d2" }]

/-- A well-formed input with duplicate edges, used as witness for C3: two
copies of `r→a` (different edge ids) plus `r→b`. -/
def c3WitnessNodes : List Node := [{ id := "r" }, { id := "a" }, { id := "b" }]

/-- Edges for the C3 witness: the duplicate `r→a` must collapse to the first
occurrence `e1`. -/
def c3WitnessEdges : List Edge :=
  [{ id := "e1", source := "r", target := "a" },
   { id := "e2", source := "r", target := "a" },
   { id := "e3", source := "r", target := "b" }]

/-- The diamond input for C4: `r→a`, `r→b`, `a→b` is preserved verbatim by
the repair pass, yet BFS gives `a` and `b` the same depth 1. -/
def c4DiamondNodes : List Node :=
  [{ id := "r", name := "r" }, { id := "a", name := "a" }, { id := "b", name := "b" }]

/-- The diamond edge set. -/
def c4DiamondEdges : List Edge :=
  [{ id := "e1", source := "r", target := "a" },
   { id := "e2", source := "r", target := "b" },
   { id := "e3", source := "a", target := "b" }]

/-- The spec's depth scenario: a proper tree
`root → {a, b}`, `a → c`, used as witness for the amended C4. -/
def c4TreeNodes : List Node :=
  [{ id := "root", name := "root" },
   { id := "a", name := "a", parentId := some "root" },
   { id := "b", name := "b", parentId := some "root" },
   { id := "c", name := "c", parentId := some "a" }]

/-- Edges of the depth scenario tree. -/
def c4TreeEdges : List Edge :=
  [{ id := "e1", source := "root", target := "a" },
   { id := "e2", source := "root", target := "b" },
   { id := "e3", source := "a", target := "c" }]

/- ──────────────────────────────────────────────────────────────────────
   ForceLayout._calcTreeDepths (src/unnamed/part_005, lines 337-457)

   STEP 0 resets every annotation field, so the computed annotations depend
   only on the node ids, names, positions in the array, and the edges.  The
   in-place mutation of node objects is modelled by computing a positional
   annotation list (`calcCore`) from the stripped `(id, name)` pairs and
   patching it onto the node list (`calcTreeDepths`).  The JavaScript `Map`
   keyed by id (`nodeMap`) lets the last occurrence of a duplicated id win,
   which `lastIdxOf` reproduces positionally.
   ────────────────────────────────────────────────────────────────────── -/

/-- The derived annotation fields (`_depth`, `_vIndex`, `_vCount`,
`_maxDepth`, `_visited`). -/
structure Ann where
  depth : ℤ
  vIndex : ℤ
  vCount : ℤ
  maxDepth : ℤ
  visited : Bool
  deriving DecidableEq, Repr

/-- The data `_calcTreeDepths` actually reads from a node: its id and name. -/
def nodeKey (n : Node) : String × String := (n.id, n.name)

/-- Ids in array order. -/
def idsOfKeys (keys : List (String × String)) : List String := keys.map (·.1)

/-- `nodeMap.get(id)` — the index of the LAST node with this id (the `Map`
constructor lets later entries overwrite earlier ones), `none` when absent. -/
def lastIdxOf (ids : List String) (id : String) : Option Nat :=
  match ids with
  | [] => none
  | a :: rest =>
    match lastIdxOf rest id with
    | some j => some (j + 1)
    | none => if a == id then some 0 else none

/-- Edges whose two endpoints exist (`if (!nodeMap.has(e.source)) continue`). -/
def validEdgesK (ids : List String) (es : List Edge) : List Edge :=
  es.filter (fun e => ids.contains e.source && ids.contains e.target)

/-- `childrenMap.get(id)`: targets of the valid edges out of `id`, in edge
order. -/
def childrenOf (ids : List String) (es : List Edge) (id : String) : List String :=
  ((validEdgesK ids es).filter (fun e => e.source == id)).map (·.target)

/-- `incomingCount.get(id)`: number of valid edges into `id`. -/
def incomingCount (ids : List String) (es : List Edge) (id : String) : Nat :=
  ((validEdgesK ids es).filter (fun e => e.target == id)).length

/-- STEP 2: root indices = nodes with zero incoming edges; if none and the
node list is nonempty, the first node is forced to be a root. -/
def bfsRoots (keys : List (String × String)) (es : List Edge) : List Nat :=
  let ids := idsOfKeys keys
  let rs := (List.range keys.length).filter
    (fun i => incomingCount ids es (ids.getD i "") == 0)
  if rs.isEmpty && !keys.isEmpty then [0] else rs

/-- `bfsVisited.add(id)` — a JS `Set`, only membership is ever observed. -/
def insertId (v : List String) (id : String) : List String :=
  if v.contains id then v else id :: v

/-- Root initialisation of STEP 3: depth 0, visited, enqueued. -/
def bfsInit (keys : List (String × String)) (es : List Edge) :
    List ℤ × List String × List Nat :=
  (bfsRoots keys es).foldl
    (fun st i =>
      (setAt i 0 st.1, insertId st.2.1 ((idsOfKeys keys).getD i ""), st.2.2 ++ [i]))
    (List.replicate keys.length (-1), [], [])

/-- One dequeue of the BFS while-loop: mark and enqueue every unvisited
child with depth `curr._depth + 1`.  The fold state is (depths, visited,
queue-tail). -/
def bfsChildStep (ids : List String) (i : Nat)
    (st : List ℤ × List String × List Nat) (childId : String) :
    List ℤ × List String × List Nat :=
  if st.2.1.contains childId then st
  else
    match lastIdxOf ids childId with
    | none => st
    | some ci => (setAt ci (st.1.getD i (-1) + 1) st.1, insertId st.2.1 childId, st.2.2 ++ [ci])

/-- STEP 3 BFS loop.  JavaScript runs it until the queue empties; every run
pops at most once per enqueue and there are at most `2n` enqueues, so fuel
`2n+1` dominates every real run. -/
def bfsLoop (keys : List (String × String)) (es : List Edge) :
    Nat → List ℤ → List String → List Nat → List ℤ × List String
  | 0, d, v, _ => (d, v)
  | _ + 1, d, v, [] => (d, v)
  | fuel + 1, d, v, i :: qrest =>
    let ids := idsOfKeys keys
    let st := (childrenOf ids es (ids.getD i "")).foldl (bfsChildStep ids i) (d, v, qrest)
    bfsLoop keys es fuel st.1 st.2.1 st.2.2

/-- BFS result: per-index depths (−1 = unassigned) and the visited id set. -/
def bfsRun (keys : List (String × String)) (es : List Edge) : List ℤ × List String :=
  let st := bfsInit keys es
  bfsLoop keys es (2 * keys.length + 1) st.1 st.2.1 st.2.2

/-- `maxDepth` scan (`if (n._depth > maxDepth) maxDepth = n._depth`, from 0). -/
def maxDepthOf (d : List ℤ) : ℤ := d.foldl (fun m x => if x > m then x else m) 0

/-- STEP 4 fallback: any node with `_depth === -1` is placed at maxDepth+1. -/
def fallbackDepths (d : List ℤ) : List ℤ :=
  d.map (fun x => if x = -1 then maxDepthOf d + 1 else x)

/-- The `levels` / `depthCounts` maps (`Map<depth, counter>`). -/
def lvlGet (levels : List (ℤ × ℤ)) (d : ℤ) : Option ℤ :=
  (levels.find? (fun p => p.1 == d)).map (·.2)

/-- `Map.set` for the `levels` / `depthCounts` maps. -/
def lvlSet : List (ℤ × ℤ) → ℤ → ℤ → List (ℤ × ℤ)
  | [], d, v => [(d, v)]
  | (d2, v2) :: rest, d, v => if d2 == d then (d, v) :: rest else (d2, v2) :: lvlSet rest d v

/-- `a.name.localeCompare(b.name)` modelled as lexicographic string order. -/
def nameLt (a b : String) : Bool := a < b

/-- Stable insertion used to model the (stable) JavaScript `Array.sort`. -/
def insertLeBy (lt : α → α → Bool) (x : α) : List α → List α
  | [] => [x]
  | y :: ys => if lt x y then x :: y :: ys else y :: insertLeBy lt x ys

/-- Stable ascending sort (equal keys keep their relative input order). -/
def sortByStable (lt : α → α → Bool) (l : List α) : List α :=
  l.foldl (fun acc x => insertLeBy lt x acc) []

/-- DFS state of STEP 5: per-index `_vIndex`, `_visited` and the `levels`
counter map. -/
structure DfsState where
  vIdx : List ℤ
  flags : List Bool
  levels : List (ℤ × ℤ)
  deriving DecidableEq, Repr

/-- Name of the node at index `i`. -/
def nameAt (keys : List (String × String)) (i : Nat) : String := (keys.getD i ("", "")).2

/-- Id of the node at index `i`. -/
def idAt (keys : List (String × String)) (i : Nat) : String := (keys.getD i ("", "")).1

/-- STEP 5 recursive `visit`: assign the per-depth running `_vIndex`, then
recurse into unvisited children sorted by name.  Recursion depth is bounded
by the number of unvisited nodes, so fuel `n+1` dominates every real run. -/
def dfsVisit (keys : List (String × String)) (es : List Edge) (depths : List ℤ) :
    Nat → DfsState → String → DfsState
  | 0, st, _ => st
  | fuel + 1, st, nodeId =>
    let ids := idsOfKeys keys
    match lastIdxOf ids nodeId with
    | none => st
    | some idx =>
      if st.flags.getD idx false then st
      else
        let d := depths.getD idx (-1)
        let vi := (lvlGet st.levels d).getD 0
        let st1 : DfsState :=
          { vIdx := setAt idx vi st.vIdx, flags := setAt idx true st.flags,
            levels := lvlSet st.levels d (vi + 1) }
        let childIdxs := (childrenOf ids es nodeId).filterMap (lastIdxOf ids)
        let unvisited := childIdxs.filter (fun ci => !(st1.flags.getD ci false))
        let sorted := sortByStable (fun i j => nameLt (nameAt keys i) (nameAt keys j)) unvisited
        sorted.foldl (fun st2 ci => dfsVisit keys es depths fuel st2 (idAt keys ci)) st1

/-- STEP 5 driver: visit the name-sorted roots, then sweep all remaining
unvisited nodes in array order. -/
def dfsRun (keys : List (String × String)) (es : List Edge) (depths : List ℤ) : DfsState :=
  let n := keys.length
  let st0 : DfsState := ⟨List.replicate n 0, List.replicate n false, []⟩
  let sortedRoots :=
    sortByStable (fun i j => nameLt (nameAt keys i) (nameAt keys j)) (bfsRoots keys es)
  let st1 := sortedRoots.foldl (fun st i => dfsVisit keys es depths (n + 1) st (idAt keys i)) st0
  (List.range n).foldl
    (fun st i => if st.flags.getD i false then st else dfsVisit keys es depths (n + 1) st (idAt keys i))
    st1

/-- STEP 6 `depthCounts`: per depth, the maximum `_vIndex + 1`. -/
def depthCountsOf (depths : List ℤ) (vIdx : List ℤ) (n : Nat) : List (ℤ × ℤ) :=
  (List.range n).foldl
    (fun m i =>
      let d := depths.getD i (-1)
      let cur := (lvlGet m d).getD 0
      let cand := vIdx.getD i 0 + 1
      lvlSet m d (if cand > cur then cand else cur))
    []

/-- The full annotation pass on stripped `(id, name)` pairs: returns the
positional annotation list. -/
def calcCore (keys : List (String × String)) (es : List Edge) : List Ann :=
  let n := keys.length
  let bfs := bfsRun keys es
  let depths2 := fallbackDepths bfs.1
  let maxD := maxDepthOf depths2
  let dfs := dfsRun keys es depths2
  let dc := depthCountsOf depths2 dfs.vIdx n
  (List.range n).map (fun i =>
    { depth := depths2.getD i (-1),
      vIndex := dfs.vIdx.getD i 0,
      vCount := jsOrZ ((lvlGet dc (depths2.getD i (-1))).getD 0) 1,
      maxDepth := maxD,
      visited := dfs.flags.getD i false })

/-- Write the computed annotations onto a node (the only fields the pass
mutates). -/
def patchAnn (n : Node) (a : Ann) : Node :=
  { n with depth := a.depth, vIndex := a.vIndex, vCount := a.vCount,
           maxDepth := a.maxDepth, visited := a.visited }

/-- `ForceLayout._calcTreeDepths(nodes, edges)`: early return on an empty
node list, else annotate every node in place. -/
def calcTreeDepths (ns : List Node) (es : List Edge) : List Node :=
  if ns.isEmpty then ns
  else List.zipWith patchAnn ns (calcCore (ns.map nodeKey) es)

/- ──────────────────────────────────────────────────────────────────────
   ForceLayout._applyForces, tick loop and applyStrictLayout
   (src/unnamed/part_005, lines 129-330 and 459-516)

   Every force step only accumulates into `vx`/`vy`; positions are read but
   not written until the final snap/integration.  Each phase is therefore
   modelled as computing its list of velocity increments from the
   phase-entry state and applying them in program order
   (`applyVelUpdates`), which produces exactly the JavaScript result
   because no phase reads a velocity.
   ────────────────────────────────────────────────────────────────────── -/

/-- The layout mode strings `"free" | "strict" | "radial"`. -/
inductive Mode
  | free
  | strict
  | radial
  deriving DecidableEq, Repr

/-- `ForceLayout.cfg` constants. -/
structure ForceCfg where
  repulsion : ℚ := -280
  linkDistance : ℚ := 80
  linkStrength : ℚ := 35 / 100
  centerStrength : ℚ := 3 / 100
  alphaDecay : ℚ := 18 / 1000
  alphaMin : ℚ := 5 / 1000
  collideBuffer : ℚ := 6
  clusterStrength : ℚ := 12 / 100

/-- The configuration object of the engine. -/
def cfg : ForceCfg := {}

/-- The node at index `i` (JavaScript array access; callers stay in range). -/
def nodeAt (ns : List Node) (i : Nat) : Node := ns.getD i default

/-- `nodeMap.get(id)` over the full node array (last occurrence wins). -/
def lastById : List Node → String → Option Node
  | [], _ => none
  | n :: rest, id =>
    match lastById rest id with
    | some m => some m
    | none => if n.id == id then some n else none

/-- The parent walk of `_getActiveNodes().isHidden`: climb `parentId` links
until a collapsed ancestor is found or the chain ends.  JavaScript loops on
the heap; fuel `|nodes|+1` dominates every terminating run (a `parentId`
cycle would hang the JavaScript). -/
def isHiddenAux (ns : List Node) : Nat → Node → Bool
  | 0, _ => false
  | fuel + 1, curr =>
    if jsFalsyStr curr.parentId then false
    else
      match lastById ns (curr.parentId.getD "") with
      | some parent => if parent.collapsed then true else isHiddenAux ns fuel parent
      | none => false

/-- A node is hidden when some ancestor is collapsed. -/
def isHidden (ns : List Node) (n : Node) : Bool := isHiddenAux ns (ns.length + 1) n

/-- Indices of the active (non-hidden) nodes, in array order. -/
def activeIdx (ns : List Node) : List Nat :=
  (List.range ns.length).filter (fun i => !isHidden ns (nodeAt ns i))

/-- Ids of the active nodes. -/
def activeIds (ns : List Node) (act : List Nat) : List String :=
  act.map (fun i => (nodeAt ns i).id)

/-- `_getActiveEdges`: edges between active nodes. -/
def activeEdges (ns : List Node) (act : List Nat) (es : List Edge) : List Edge :=
  es.filter (fun e =>
    (activeIds ns act).contains e.source && (activeIds ns act).contains e.target)

/-- The step-2 `nodeMap` over `activeNodes` (last active occurrence wins);
returns the index into the full node array. -/
def lastActiveIdx (ns : List Node) : List Nat → String → Option Nat
  | [], _ => none
  | i :: rest, id =>
    match lastActiveIdx ns rest id with
    | some j => some j
    | none => if (nodeAt ns i).id == id then some i else none

/-- Apply a list of velocity increments in program order. -/
def applyVelUpdates : List Node → List (Nat × ℚ × ℚ) → List Node
  | ns, [] => ns
  | ns, (i, dx, dy) :: rest =>
    applyVelUpdates (updAt i (fun n => { n with vx := n.vx + dx, vy := n.vy + dy }) ns) rest

/-- Ordered pairs `(i, j)` with `i` before `j`, in the double-loop order. -/
def pairsOf : List Nat → List (Nat × Nat)
  | [] => []
  | x :: xs => xs.map (fun y => (x, y)) ++ pairsOf xs

/-- Step 1 (small graphs): one repulsion pair of the O(n²) loop. -/
def repUpdates (M : MathLib) (alpha : ℚ) (ns : List Node) (p : Nat × Nat) :
    List (Nat × ℚ × ℚ) :=
  let a := nodeAt ns p.1
  let b := nodeAt ns p.2
  let dx := jsOr (jsNum b.x - jsNum a.x) (1 / 1000)
  let dy := jsOr (jsNum b.y - jsNum a.y) (1 / 1000)
  let d2 := dx * dx + dy * dy
  let d := M.sqrt d2
  let f := (cfg.repulsion / d2) * alpha
  let fx := f * dx / d
  let fy := f * dy / d
  [(p.1, -fx, -fy), (p.2, fx, fy)]

/-- `_gridRepulsion` cell key `(Math.floor(x/150), Math.floor(y/150))`
(JavaScript interpolates the two integers into a string; the integer pair is
an equivalent injective key). -/
def cellOf (n : Node) : ℤ × ℤ := (⌊jsNum n.x / 150⌋, ⌊jsNum n.y / 150⌋)

/-- `grid.get(key).push(n)`. -/
def gridInsert : List ((ℤ × ℤ) × List Nat) → ℤ × ℤ → Nat → List ((ℤ × ℤ) × List Nat)
  | [], k, i => [(k, [i])]
  | (k2, l) :: rest, k, i =>
    if k2 == k then (k2, l ++ [i]) :: rest else (k2, l) :: gridInsert rest k i

/-- Build the uniform grid over the active nodes, in order. -/
def gridOf (ns : List Node) (act : List Nat) : List ((ℤ × ℤ) × List Nat) :=
  act.foldl (fun g i => gridInsert g (cellOf (nodeAt ns i)) i) []

/-- `grid.get(key) || []`. -/
def gridGet (g : List ((ℤ × ℤ) × List Nat)) (k : ℤ × ℤ) : List Nat :=
  match g.find? (fun p => p.1 == k) with
  | some p => p.2
  | none => []

/-- Step 1 (large graphs): grid-bucketed repulsion contributions onto node
`i` from the 3×3 neighborhood, skipping the node itself (`m === n` is index
identity). -/
def gridNeighborUpdates (M : MathLib) (alpha : ℚ) (ns : List Node)
    (g : List ((ℤ × ℤ) × List Nat)) (i : Nat) : List (Nat × ℚ × ℚ) :=
  let n := nodeAt ns i
  let gx : ℤ := ⌊jsNum n.x / 150⌋
  let gy : ℤ := ⌊jsNum n.y / 150⌋
  ([-1, 0, 1] : List ℤ).flatMap (fun dx =>
    ([-1, 0, 1] : List ℤ).flatMap (fun dy =>
      (gridGet g (gx + dx, gy + dy)).filterMap (fun m =>
        if m == i then none
        else
          let mm := nodeAt ns m
          let ddx := jsOr (jsNum mm.x - jsNum n.x) (1 / 1000)
          let ddy := jsOr (jsNum mm.y - jsNum n.y) (1 / 1000)
          let d2 := ddx * ddx + ddy * ddy
          let d := M.sqrt d2
          let f := (cfg.repulsion / d2) * alpha * (1 / 2)
          some (i, -(f * ddx / d), -(f * ddy / d)))))

/-- Step 1: N-body repulsion (O(n²) at ≤ 600 active nodes, else grid). -/
def repulsionPhase (M : MathLib) (alpha : ℚ) (ns : List Node) (act : List Nat) : List Node :=
  if act.length ≤ 600 then
    applyVelUpdates ns ((pairsOf act).flatMap (repUpdates M alpha ns))
  else
    applyVelUpdates ns (act.flatMap (gridNeighborUpdates M alpha ns (gridOf ns act)))

/-- Step 2: spring contribution of one active edge. -/
def springUpdates (M : MathLib) (alpha : ℚ) (ns : List Node) (act : List Nat) (e : Edge) :
    List (Nat × ℚ × ℚ) :=
  match lastActiveIdx ns act e.source, lastActiveIdx ns act e.target with
  | some si, some ti =>
    let src := nodeAt ns si
    let tgt := nodeAt ns ti
    let dx := jsNum tgt.x - jsNum src.x
    let dy := jsNum tgt.y - jsNum src.y
    let d := jsOr (M.sqrt (dx * dx + dy * dy)) (1 / 1000)
    let disp := (d - cfg.linkDistance) / d * cfg.linkStrength * alpha
    let fx := dx * disp * (1 / 2)
    let fy := dy * disp * (1 / 2)
    [(si, fx, fy), (ti, -fx, -fy)]
  | _, _ => []

/-- Step 2: link spring forces along the active edges. -/
def springPhase (M : MathLib) (alpha : ℚ) (ns : List Node) (act : List Nat)
    (aes : List Edge) : List Node :=
  applyVelUpdates ns (aes.flatMap (springUpdates M alpha ns act))

/-- Step 3 (free mode only): centering pull toward the active centroid. -/
def centerPhase (alpha : ℚ) (ns : List Node) (act : List Nat) : List Node :=
  let cx := (act.foldl (fun s i => s + jsNum (nodeAt ns i).x) 0) / (act.length : ℚ)
  let cy := (act.foldl (fun s i => s + jsNum (nodeAt ns i).y) 0) / (act.length : ℚ)
  applyVelUpdates ns (act.map (fun i =>
    (i, -((jsNum (nodeAt ns i).x - cx) * cfg.centerStrength * alpha),
        -((jsNum (nodeAt ns i).y - cy) * cfg.centerStrength * alpha))))

/-- `_applyRadialGraph` contribution for one node. -/
def radialUpdates (M : MathLib) (alpha : ℚ) (ns : List Node) (i : Nat) :
    List (Nat × ℚ × ℚ) :=
  let n := nodeAt ns i
  if n.depth = 0 then
    [(i, (0 - jsNum n.x) * (1 / 10) * alpha, (0 - jsNum n.y) * (1 / 10) * alpha)]
  else
    let targetR := ((jsOrZ n.depth 1 : ℤ) : ℚ) * 200
    let currentR := jsOr (M.sqrt (jsNum n.x * jsNum n.x + jsNum n.y * jsNum n.y)) (1 / 10)
    let radialForce := (targetR - currentR) * (2 / 25) * alpha
    let angle := M.atan2 (jsNum n.y) (jsNum n.x)
    let vIndex := jsOrZ n.vIndex 0
    let vCount := jsOrZ n.vCount 1
    let targetAngle := ((vIndex : ℚ) / ((max vCount 1 : ℤ) : ℚ)) * M.pi * 2 - M.pi
    let angleDiff := targetAngle - angle
    [(i, (jsNum n.x / currentR) * radialForce, (jsNum n.y / currentR) * radialForce),
     (i, M.cos (angle + M.pi / 2) * angleDiff * 15 * alpha,
         M.sin (angle + M.pi / 2) * angleDiff * 15 * alpha)]

/-- Step 4 (radial mode): orbit and angular-slot forces. -/
def radialPhase (M : MathLib) (alpha : ℚ) (ns : List Node) (act : List Nat) : List Node :=
  applyVelUpdates ns (act.flatMap (radialUpdates M alpha ns))

/-- Step 5: collision separation of one ordered pair. -/
def collideUpdates (M : MathLib) (ns : List Node) (p : Nat × Nat) : List (Nat × ℚ × ℚ) :=
  let a := nodeAt ns p.1
  let b := nodeAt ns p.2
  let minD := jsOrOpt a.radius 10 + jsOrOpt b.radius 10 + cfg.collideBuffer
  let dx := jsOr (jsNum b.x - jsNum a.x) (1 / 1000)
  let dy := jsOr (jsNum b.y - jsNum a.y) (1 / 1000)
  let d := M.sqrt (dx * dx + dy * dy)
  if d < minD then
    let overlap := (minD - d) / d * (1 / 2)
    [(p.1, -(dx * overlap), -(dy * overlap)), (p.2, dx * overlap, dy * overlap)]
  else []

/-- Step 5: pairwise collision avoidance. -/
def collidePhase (M : MathLib) (ns : List Node) (act : List Nat) : List Node :=
  applyVelUpdates ns ((pairsOf act).flatMap (collideUpdates M ns))

/-- Strict-mode snap: satisfy drag mechanics (`fx`/`fy` → `x`/`y`), no
physics (the JavaScript tests only `fx` for null). -/
def strictSnap (n : Node) : Node :=
  if n.fx.isSome then { n with x := n.fx, y := n.fy, vx := 0, vy := 0 } else n

/-- Step 6: velocity integration with 0.7 damping and ±20 clamp; pinned
nodes snap to the pin with zeroed velocity. -/
def integrateNode (n : Node) : Node :=
  if n.fx.isSome then { n with x := n.fx, y := n.fy, vx := 0, vy := 0 }
  else
    let vx := n.vx * (7 / 10)
    let vy := n.vy * (7 / 10)
    { n with vx := vx, vy := vy,
             x := some (jsNum n.x + clampQ vx (-20) 20),
             y := some (jsNum n.y + clampQ vy (-20) 20) }

/-- Apply `f` to exactly the active indices (the per-node loops of steps 4
and 6). -/
def mapAtIdx (ns : List Node) (act : List Nat) (f : Node → Node) : List Node :=
  mapWithIdx (fun i n => if act.contains i then f n else n) ns

/-- `ForceLayout._applyForces()`: one full force pass over the active
subset.  Strict mode skips steps 3, 5 and 6 and only snaps pins. -/
def applyForces (M : MathLib) (mode : Mode) (alpha : ℚ) (ns : List Node) (es : List Edge) :
    List Node :=
  let act := activeIdx ns
  if act.isEmpty then ns
  else
    let aes := activeEdges ns act es
    let s1 := repulsionPhase M alpha ns act
    let s2 := springPhase M alpha s1 act aes
    let s3 := if mode = Mode.free then centerPhase alpha s2 act else s2
    if mode = Mode.strict then mapAtIdx s3 act strictSnap
    else
      let s4 := if mode = Mode.radial then radialPhase M alpha s3 act else s3
      let s5 := collidePhase M s4 act
      mapAtIdx s5 act integrateNode

/-- The engine state observed by the tick loop. -/
structure SimState where
  nodes : List Node
  edges : List Edge
  alpha : ℚ
  running : Bool
  mode : Mode
  finalSignalled : Bool := false
  deriving DecidableEq, Repr

/-- `ForceLayout._tick()`: below `alphaMin` (or when stopped) the engine
goes idle and fires the final `onTick(nodes, true)` callback (recorded in
`finalSignalled`); otherwise it applies forces and decays the energy. -/
def tickStep (M : MathLib) (s : SimState) : SimState :=
  if ¬ s.running ∨ s.alpha < cfg.alphaMin then
    { s with running := false, finalSignalled := true }
  else
    { s with nodes := applyForces M s.mode s.alpha s.nodes s.edges,
             alpha := s.alpha * (1 - cfg.alphaDecay) }

/-- The `requestAnimationFrame` chain: a next tick is scheduled only while
the engine is running. -/
def runTicks (M : MathLib) : Nat → SimState → SimState
  | 0, s => s
  | n + 1, s => if s.running then runTicks M n (tickStep M s) else s

/-- `ForceLayout.start()`: no emptiness guard — it flips `running` and
immediately runs the first tick. -/
def start (M : MathLib) (s : SimState) : SimState :=
  if s.running then s else tickStep M { s with running := true }

/-- `n.x != null && n.y != null && !(n.x === 0 && n.y === 0)`. -/
def hasPos (n : Node) : Bool :=
  n.x.isSome && n.y.isSome && !(n.x == some 0 && n.y == some 0)

/-- `ForceLayout.applyStrictLayout({onlyUnpositioned})`: recompute depths,
then place every (non-skipped) node at the deterministic grid position and
zero its velocity. -/
def applyStrictLayout (onlyUnpositioned : Bool) (ns : List Node) (es : List Edge) :
    List Node :=
  if ns.isEmpty then ns
  else
    (calcTreeDepths ns es).map (fun n =>
      if onlyUnpositioned && hasPos n then n
      else
        { n with x := some ((n.depth : ℚ) * 300),
                 y := some ((n.vIndex : ℚ) * 100 - ((jsOrZ n.vCount 1 - 1 : ℤ) : ℚ) * 100 / 2),
                 vx := 0, vy := 0 })

/-- A trivial interpretation of the opaque `Math` functions, used by
concrete counterexamples and witnesses. -/
def mathZero : MathLib :=
  { sqrt := fun _ => 0, atan2 := fun _ _ => 0, cos := fun _ => 0, sin := fun _ => 0, pi := 0 }

/-- C7 counterexample input: node `p` is collapsed and active; its child
`c` is hidden and pinned at `(5,5)` while sitting at `(0,0)`. -/
def c7Nodes : List Node :=
  [{ id := "p", name := "p", collapsed := true, x := some 0, y := some 0 },
   { id := "c", name := "c", parentId := some "p", x := some 0, y := some 0,
     vx := 1, vy := 1, fx := some 5, fy := some 5 }]

/-- C7 witness input: a single active pinned node. -/
def c7WitnessNodes : List Node :=
  [{ id := "n", name := "n", x := some 1, y := some 2, vx := 3, vy := 4,
     fx := some 7, fy := some 8 }]

/-- C8 witness input: one already-positioned node and one new unpositioned
node. -/
def c8Nodes : List Node :=
  [{ id := "old", name := "old", x := some 11, y := some 22 },
   { id := "new", name := "new", parentId := some "old" }]

/-- C8 witness edges. -/
def c8Edges : List Edge := [{ id := "e1", source := "old", target := "new" }]

/-- C9 counterexample state: an idle engine with zero nodes. -/
def c9EmptyState : SimState :=
  { nodes := [], edges := [], alpha := 1, running := false, mode := Mode.free }

/-- C6 witness state: a running engine with energy 1 and no nodes. -/
def c6State : SimState :=
  { nodes := [], edges := [], alpha := 1, running := true, mode := Mode.free }

/-- Invariant carried through the BFS of `_calcTreeDepths` (used to prove
the amended depth-monotonicity claim): depths array has the right length,
queued indices are visited, every visited id has a nonnegative depth at its
index, unvisited indices still hold the `-1` sentinel, and every visited id
either has zero incoming valid edges or got its depth from a visited
in-neighbor, one more than the neighbor's depth. -/
structure BfsInvS (keys : List (String × String)) (es : List Edge)
    (d : List ℤ) (v : List String) (q : List Nat) : Prop where
  dlen : d.length = keys.length
  qok : ∀ i ∈ q, i < keys.length ∧ (idsOfKeys keys).getD i "" ∈ v
  vdepth : ∀ id ∈ v, ∃ i, lastIdxOf (idsOfKeys keys) id = some i ∧ 0 ≤ d.getD i (-1)
  unvis : ∀ i, i < keys.length → (idsOfKeys keys).getD i "" ∉ v → d.getD i (-1) = -1
  parent : ∀ id ∈ v, incomingCount (idsOfKeys keys) es id = 0 ∨
    ∃ src i j, src ∈ v ∧
      (∃ e ∈ validEdgesK (idsOfKeys keys) es, e.source = src ∧ e.target = id) ∧
      lastIdxOf (idsOfKeys keys) id = some i ∧ lastIdxOf (idsOfKeys keys) src = some j ∧
      d.getD i (-1) = d.getD j (-1) + 1

end AetherFS

namespace AetherFS

/- ──────────────────────────────────────────────────────────────────────
   Helper lemmas about the repair pass
   ────────────────────────────────────────────────────────────────────── -/

theorem contains_iff_mem {α : Type} [BEq α] [LawfulBEq α] (l : List α) (x : α) :
    l.contains x = true ↔ x ∈ l :=
  List.elem_iff

theorem mem_of_mem_dedupEdges {seen : List String} {l : List Edge} {e : Edge}
    (h : e ∈ dedupEdges seen l) : e ∈ l := by
  induction l generalizing seen with
  | nil => simp [dedupEdges] at h
  | cons a t ih =>
    rw [dedupEdges] at h
    by_cases hk : seen.contains (edgeKey a)
    · rw [if_pos hk] at h
      exact List.mem_cons_of_mem _ (ih h)
    · rw [if_neg hk] at h
      rcases List.mem_cons.mp h with h1 | h1
      · exact h1 ▸ List.mem_cons_self _ _
      · exact List.mem_cons_of_mem _ (ih h1)

theorem rootId_mem {ns : List Node} {es : List Edge} {r : String}
    (h : rootId ns es = some r) : r ∈ nodeIdsOf ns := by
  unfold rootId at h
  rcases hf : ns.filter (fun n => !(targetedIds es).contains n.id) with _ | ⟨n, t⟩
  · rw [hf] at h
    dsimp only at h
    rcases hh : ns.head? with _ | ⟨m⟩
    · rw [hh] at h
      exact absurd h (by simp)
    · rw [hh] at h
      dsimp only at h
      by_cases hm : m.id = ""
      · rw [if_pos hm] at h
        exact absurd h (by simp)
      · rw [if_neg hm] at h
        have hmem : m ∈ ns := List.mem_of_mem_head? hh
        simp only [Option.some_inj] at h
        exact h ▸ List.mem_map_of_mem (·.id) hmem
  · rw [hf] at h
    dsimp only at h
    simp only [Option.some_inj] at h
    have hmem : n ∈ ns := (List.mem_filter.mp (hf ▸ List.mem_cons_self n t)).1
    exact h ▸ List.mem_map_of_mem (·.id) hmem

theorem synthEdge_of_root {ids : List String} {r : String} (n : Node) :
    ∃ e, synthEdge? ids (some r) n = some e ∧ e.target = n.id := by
  unfold synthEdge?
  by_cases hp : jsFalsyStr n.parentId
  · simp only [hp, if_pos]
    by_cases hr : ids.contains r
    · exact ⟨_, by rw [if_pos hr], rfl⟩
    · exact ⟨_, by rw [if_neg hr], rfl⟩
  · simp only [hp, Bool.false_eq_true, if_neg, not_false_iff]
    rcases hq : n.parentId with _ | ⟨p⟩
    · simp [jsFalsyStr, hq] at hp
    · dsimp only
      by_cases hin : ids.contains p
      · exact ⟨_, by rw [if_pos hin], rfl⟩
      · exact ⟨_, by rw [if_neg hin], rfl⟩

/-- C1 (counterexample): feeding `loadGraph` the nodes `[r, a, b]` with the
single edge `a→b` leaves the edge set untouched, and afterwards TWO nodes
(`r` and `a`) have no incoming edge — refuting "exactly one node has no
incoming edge after `loadGraph`" (and `a`, `b` are not reachable from the
untargeted node `r` either). -/
theorem c1_counterexample :
    ¬ noIncomingCount c1Nodes (loadGraph c1Nodes c1Edges).edges = 1 := by decide

/-- C1 (amended): after `loadGraph` on a nonempty node list, there is a node
id `r` (the chosen root) such that every node either carries that id or is
an endpoint (source or target) of at least one edge of the repaired edge
set.  Uniqueness of the root and reachability from it are NOT guaranteed:
the repair pass only checks membership in the edge-endpoint set. -/
theorem c1_singleRoot_amended (ns : List Node) (es : List Edge) (h : ns ≠ []) :
    ∃ r ∈ nodeIdsOf ns, ∀ n ∈ ns, n.id = r ∨
      ∃ e ∈ (loadGraph ns es).edges, e.source = n.id ∨ e.target = n.id := by
  have hedges : (loadGraph ns es).edges =
      dedupEdges [] (validEdges ns es) ++
        (danglingNodes ns (rootId ns (dedupEdges [] (validEdges ns es)))
            (dedupEdges [] (validEdges ns es))).filterMap
          (synthEdge? (nodeIdsOf ns) (rootId ns (dedupEdges [] (validEdges ns es)))) := rfl
  set unique := dedupEdges [] (validEdges ns es) with hu
  rcases hroot : rootId ns unique with _ | ⟨r⟩
  · -- the root is null: the untargeted filter is empty, so every node is a
    -- target of some surviving edge; any node id works as `r`.
    unfold rootId at hroot
    rcases hf : ns.filter (fun n => !(targetedIds unique).contains n.id) with _ | ⟨m, t⟩
    · have htargeted : ∀ n ∈ ns, n.id ∈ targetedIds unique := by
        intro n hn
        have hb := List.filter_eq_nil_iff.mp hf n hn
        have hb2 : (targetedIds unique).contains n.id = true := by
          simpa using hb
        exact (contains_iff_mem _ _).mp hb2
      rcases ns with _ | ⟨n0, nt⟩
      · exact absurd rfl h
      · refine ⟨n0.id, List.mem_map_of_mem (fun nd : Node => nd.id) (List.mem_cons_self n0 nt), ?_⟩
        intro n hn
        right
        have := htargeted n hn
        rcases List.mem_map.mp this with ⟨e, he, hid⟩
        exact ⟨e, hedges ▸ List.mem_append_left _ he, Or.inr hid⟩
    · rw [hf] at hroot; exact absurd hroot (by simp)
  · refine ⟨r, rootId_mem hroot, ?_⟩
    intro n hn
    by_cases hr : n.id = r
    · exact Or.inl hr
    right
    by_cases hc : (connectedIds (some r) unique).contains n.id
    · -- connected: n.id is the root (excluded) or an endpoint of a kept edge
      have hmem := (contains_iff_mem _ _).mp hc
      unfold connectedIds at hmem
      rcases List.mem_append.mp hmem with hl | hr2
      · simp only [List.mem_singleton] at hl
        exact absurd hl hr
      · rcases List.mem_flatMap.mp hr2 with ⟨e, he, hend⟩
        refine ⟨e, hedges ▸ List.mem_append_left _ he, ?_⟩
        simp only [List.mem_cons, List.mem_singleton, List.not_mem_nil, or_false] at hend
        rcases hend with h1 | h1
        · exact Or.inl h1.symm
        · exact Or.inr h1.symm
    · -- dangling: the repair synthesizes an edge targeting n.id
      have hdang : n ∈ danglingNodes ns (some r) unique := by
        refine List.mem_filter.mpr ⟨hn, ?_⟩
        simp only [hc, Bool.not_false, Bool.true_and]
        exact decide_eq_true hr
      rcases @synthEdge_of_root (nodeIdsOf ns) r n with ⟨e, hse, htgt⟩
      refine ⟨e, ?_, Or.inr htgt⟩
      rw [hedges, hroot]
      exact List.mem_append_right _ (List.mem_filterMap.mpr ⟨n, hdang, hse⟩)

/-- Witness for `c1_singleRoot_amended` at the concrete malformed input. -/
theorem c1_singleRoot_amended_witness :
    c1Nodes ≠ [] ∧
      ∃ r ∈ nodeIdsOf c1Nodes, ∀ n ∈ c1Nodes, n.id = r ∨
        ∃ e ∈ (loadGraph c1Nodes c1Edges).edges, e.source = n.id ∨ e.target = n.id :=
  ⟨by decide, c1_singleRoot_amended c1Nodes c1Edges (by decide)⟩

/- ──────────────────────────────────────────────────────────────────────
   C2: sources of synthesized edges
   ────────────────────────────────────────────────────────────────────── -/

theorem synthEdge_eq_some (ids : List String) (r : String) (n : Node) :
    synthEdge? ids (some r) n =
      some { id := expectedSynthSource ids r n ++ "->" ++ n.id,
             source := expectedSynthSource ids r n, target := n.id } := by
  unfold synthEdge? expectedSynthSource
  rcases hq : n.parentId with _ | ⟨p⟩
  · simp [jsFalsyStr, hq, ite_self]
  · by_cases hp : p = ""
    · subst hp
      simp [jsFalsyStr, hq, ite_self]
    · by_cases hin : ids.contains p
      · have hmem : p ∈ ids := (contains_iff_mem _ _).mp hin
        simp [jsFalsyStr, hq, hp, hin, hmem]
      · have hmem : p ∉ ids := fun hm => hin ((contains_iff_mem _ _).mpr hm)
        simp [jsFalsyStr, hq, hp, hin, hmem]

theorem filterMap_synth_nil {ids : List String} {r x : String} {t : List Node}
    (h : ∀ m ∈ t, m.id ≠ x) :
    (t.filterMap (synthEdge? ids (some r))).filter (fun e => e.target == x) = [] := by
  induction t with
  | nil => rfl
  | cons m t ih =>
    rcases @synthEdge_of_root ids r m with ⟨em, hm, htm⟩
    rw [List.filterMap_cons, hm]
    have hfalse : (em.target == x) = false := by
      rw [htm]
      exact beq_eq_false_iff_ne.mpr (h m (List.mem_cons_self m t))
    simp only [List.filter_cons, hfalse, Bool.false_eq_true, if_false]
    exact ih (fun m1 hm1 => h m1 (List.mem_cons_of_mem _ hm1))

theorem filter_synth_single {ids : List String} {r : String} {l : List Node}
    (hnd : (l.map (fun nd : Node => nd.id)).Nodup) {n : Node} (hn : n ∈ l) :
    (l.filterMap (synthEdge? ids (some r))).filter (fun e => e.target == n.id) =
      [{ id := expectedSynthSource ids r n ++ "->" ++ n.id,
         source := expectedSynthSource ids r n, target := n.id }] := by
  induction l with
  | nil => cases hn
  | cons m t ih =>
    rw [List.filterMap_cons, synthEdge_eq_some ids r m]
    rw [List.map_cons] at hnd
    have hnd2 := List.nodup_cons.mp hnd
    rcases List.mem_cons.mp hn with heq | hmem
    · subst heq
      have hrest : ∀ m1 ∈ t, m1.id ≠ n.id := by
        intro m1 hm1 hcontra
        exact hnd2.1 (hcontra ▸ List.mem_map_of_mem (fun nd : Node => nd.id) hm1)
      simp only [List.filter_cons, beq_self_eq_true, if_true, if_pos,
        @filterMap_synth_nil ids r _ _ hrest]
    · have hne : m.id ≠ n.id := by
        intro hcontra
        exact hnd2.1 (hcontra ▸ List.mem_map_of_mem (fun nd : Node => nd.id) hmem)
      have hfalse :
          (({ id := expectedSynthSource ids r m ++ "->" ++ m.id,
              source := expectedSynthSource ids r m, target := m.id } : Edge).target == n.id)
            = false := beq_eq_false_iff_ne.mpr hne
      simp only [List.filter_cons, hfalse, Bool.false_eq_true, if_false]
      exact ih hnd2.2 hmem

/-- C2 (counterexample): in `c2Nodes` the dangling node `d` has
`parentId = ""`, and a node with id `""` exists in the node set; yet no
output edge into `d` has source `""` (the empty parent id is falsy in
`n.parentId || rootId`, so the root is used instead). -/
theorem c2_counterexample :
    ({ id := "d", parentId := some "" } : Node) ∈ c2Nodes ∧
      "" ∈ nodeIdsOf c2Nodes ∧
      (∃ e ∈ (loadGraph c2Nodes []).edges, e.target = "d") ∧
      ¬ ∃ e ∈ (loadGraph c2Nodes []).edges, e.source = "" ∧ e.target = "d" := by
  decide

/-- C2 (amended): under pairwise-distinct node ids, every node that is
neither the chosen root nor an endpoint of a surviving edge receives exactly
one synthesized edge, whose source is `node.parentId` when that parent id is
non-empty and exists in the node set, and the chosen root otherwise
(`expectedSynthSource`); the returned `fixed` count is at least 1. -/
theorem c2_synthSource_amended (ns : List Node) (es : List Edge) (n : Node) (r : String)
    (hnd : (nodeIdsOf ns).Nodup)
    (hn : n ∈ ns)
    (hroot : rootId ns (dedupEdges [] (validEdges ns es)) = some r)
    (hnotroot : n.id ≠ r)
    (hnotendpoint : ∀ e ∈ dedupEdges [] (validEdges ns es),
      e.source ≠ n.id ∧ e.target ≠ n.id) :
    (loadGraph ns es).edges.filter (fun e => e.target == n.id) =
      [{ id := expectedSynthSource (nodeIdsOf ns) r n ++ "->" ++ n.id,
         source := expectedSynthSource (nodeIdsOf ns) r n, target := n.id }] ∧
    1 ≤ (loadGraph ns es).fixed := by
  have hedges : (loadGraph ns es).edges =
      dedupEdges [] (validEdges ns es) ++
        (danglingNodes ns (rootId ns (dedupEdges [] (validEdges ns es)))
            (dedupEdges [] (validEdges ns es))).filterMap
          (synthEdge? (nodeIdsOf ns) (rootId ns (dedupEdges [] (validEdges ns es)))) := rfl
  have hdang : n ∈ danglingNodes ns (some r) (dedupEdges [] (validEdges ns es)) := by
    refine List.mem_filter.mpr ⟨hn, ?_⟩
    have hcontains :
        (connectedIds (some r) (dedupEdges [] (validEdges ns es))).contains n.id = false := by
      rw [Bool.eq_false_iff]
      intro hcon
      have hmem := (contains_iff_mem _ _).mp hcon
      unfold connectedIds at hmem
      rcases List.mem_append.mp hmem with hl | hr2
      · simp only [List.mem_singleton] at hl
        exact hnotroot hl
      · rcases List.mem_flatMap.mp hr2 with ⟨e, he, hend⟩
        simp only [List.mem_cons, List.mem_singleton, List.not_mem_nil, or_false] at hend
        rcases hend with h1 | h1
        · exact (hnotendpoint e he).1 h1.symm
        · exact (hnotendpoint e he).2 h1.symm
    simp only [hcontains, Bool.not_false, Bool.true_and]
    exact decide_eq_true hnotroot
  have hdangnd :
      ((danglingNodes ns (some r) (dedupEdges [] (validEdges ns es))).map
        (fun nd : Node => nd.id)).Nodup := by
    have hsub : (danglingNodes ns (some r) (dedupEdges [] (validEdges ns es))).Sublist ns :=
      List.filter_sublist ns
    exact List.Nodup.sublist (hsub.map (fun nd : Node => nd.id)) hnd
  constructor
  · rw [hedges, hroot, List.filter_append]
    have hleft : (dedupEdges [] (validEdges ns es)).filter (fun e => e.target == n.id) = [] := by
      refine List.filter_eq_nil_iff.mpr ?_
      intro e he
      simp only [Bool.not_eq_true, beq_eq_false_iff_ne]
      exact (hnotendpoint e he).2
    rw [hleft, List.nil_append]
    exact filter_synth_single hdangnd hdang
  · show 1 ≤ (ensureGraphIntegrity ns es).2
    unfold ensureGraphIntegrity
    dsimp only
    rw [hroot]
    have hpos : 0 < (danglingNodes ns (some r) (dedupEdges [] (validEdges ns es))).length :=
      List.length_pos.mpr (List.ne_nil_of_mem hdang)
    omega

/-- Witness for `c2_synthSource_amended`: the spec scenario `D` with
`parentId = "root"` and no edge to it yields the edge `root→d` and
`fixed ≥ 1`. -/
theorem c2_synthSource_amended_witness :
    ((nodeIdsOf c2ScenarioNodes).Nodup ∧
      rootId c2ScenarioNodes (dedupEdges [] (validEdges c2ScenarioNodes [])) = some "root") ∧
    (loadGraph c2ScenarioNodes []).edges.filter (fun e => e.target == "d") =
      [{ id := "root->d", source := "root", target := "d" }] ∧
    1 ≤ (loadGraph c2ScenarioNodes []).fixed := by
  have h := c2_synthSource_amended c2ScenarioNodes []
    { id := "d", parentId := some "root" } "root"
    (by decide) (by decide) (by decide) (by decide) (by decide)
  refine ⟨⟨by decide, by decide⟩, ?_, h.2⟩
  rw [h.1]
  decide

/- ──────────────────────────────────────────────────────────────────────
   C3: edge deduplication
   ────────────────────────────────────────────────────────────────────── -/

theorem sep_framing {c : Char} :
    ∀ {l1 l2 r1 r2 : List Char}, c ∉ l1 → c ∉ l2 →
      l1 ++ c :: r1 = l2 ++ c :: r2 → l1 = l2 ∧ r1 = r2 := by
  intro l1
  induction l1 with
  | nil =>
    intro l2 r1 r2 _ h2 heq
    rcases l2 with _ | ⟨b, t2⟩
    · simpa using heq
    · simp only [List.nil_append, List.cons_append, List.cons.injEq] at heq
      exact absurd (heq.1 ▸ List.mem_cons_self b t2) (heq.1 ▸ h2)
  | cons a t1 ih =>
    intro l2 r1 r2 h1 h2 heq
    rcases l2 with _ | ⟨b, t2⟩
    · simp only [List.nil_append, List.cons_append, List.cons.injEq] at heq
      exact absurd (heq.1.symm ▸ List.mem_cons_self a t1) (heq.1.symm ▸ h1)
    · simp only [List.cons_append, List.cons.injEq] at heq
      have h1t : c ∉ t1 := fun hm => h1 (List.mem_cons_of_mem _ hm)
      have h2t : c ∉ t2 := fun hm => h2 (List.mem_cons_of_mem _ hm)
      rcases ih h1t h2t heq.2 with ⟨hl, hr⟩
      exact ⟨by rw [heq.1, hl], hr⟩

theorem edgeKey_inj {e1 e2 : Edge}
    (h1s : '→' ∉ e1.source.data) (h2s : '→' ∉ e2.source.data)
    (h : edgeKey e1 = edgeKey e2) :
    e1.source = e2.source ∧ e1.target = e2.target := by
  unfold edgeKey at h
  have hdata : e1.source.data ++ '→' :: e1.target.data =
      e2.source.data ++ '→' :: e2.target.data := by
    have := congrArg String.data h
    simpa [String.data_append] using this
  rcases sep_framing h1s h2s hdata with ⟨hs, ht⟩
  exact ⟨String.ext hs, String.ext ht⟩

theorem dedupEdges_keys_nodup (l : List Edge) (seen : List String) :
    ((dedupEdges seen l).map edgeKey).Nodup ∧
      ∀ e ∈ dedupEdges seen l, seen.contains (edgeKey e) = false := by
  induction l generalizing seen with
  | nil => exact ⟨List.nodup_nil, by intro e he; cases he⟩
  | cons a t ih =>
    rw [dedupEdges]
    by_cases hk : seen.contains (edgeKey a)
    · rw [if_pos hk]
      exact ih seen
    · rw [if_neg hk]
      rcases ih (edgeKey a :: seen) with ⟨ihn, ihs⟩
      constructor
      · rw [List.map_cons, List.nodup_cons]
        refine ⟨?_, ihn⟩
        intro hm
        rcases List.mem_map.mp hm with ⟨e, he, hke⟩
        have := ihs e he
        rw [← hke] at this
        simp [List.contains_cons] at this
      · intro e he
        rcases List.mem_cons.mp he with heq | hmem
        · subst heq
          exact Bool.not_eq_true _ ▸ (by simpa using hk)
        · have := ihs e hmem
          rw [Bool.eq_false_iff] at this ⊢
          intro hc
          exact this (by simp [List.contains_cons]; right; exact (contains_iff_mem _ _).mp hc)

theorem length_filter_le_one_of_nodup_map {α β : Type} (f : α → β) {l : List α}
    (h : (l.map f).Nodup) (p : α → Bool) (c : β)
    (himp : ∀ x ∈ l, p x = true → f x = c) :
    (l.filter p).length ≤ 1 := by
  rcases hf : l.filter p with _ | ⟨e1, rest⟩
  · simp
  rcases rest with _ | ⟨e2, rest2⟩
  · simp
  exfalso
  have h1 : e1 ∈ l.filter p := hf ▸ List.mem_cons_self _ _
  have h2 : e2 ∈ l.filter p := hf ▸ List.mem_cons_of_mem _ (List.mem_cons_self _ _)
  have hk1 : f e1 = c := himp e1 (List.mem_filter.mp h1).1 (List.mem_filter.mp h1).2
  have hk2 : f e2 = c := himp e2 (List.mem_filter.mp h2).1 (List.mem_filter.mp h2).2
  have hnd : ((l.filter p).map f).Nodup := List.Nodup.sublist ((l.filter_sublist).map f) h
  rw [hf, List.map_cons, List.map_cons, List.nodup_cons] at hnd
  exact hnd.1 (by rw [hk1, hk2.symm]; exact List.mem_cons_self _ _)

theorem synthEdge_target {ids : List String} {root : Option String} {n : Node} {e : Edge}
    (h : synthEdge? ids root n = some e) : e.target = n.id := by
  rcases root with _ | ⟨r⟩
  · unfold synthEdge? at h
    rcases hq : n.parentId with _ | ⟨p⟩
    · simp [jsFalsyStr, hq] at h
    · by_cases hp : p = ""
      · subst hp
        simp [jsFalsyStr, hq] at h
      · by_cases hc : ids.contains p
        · simp only [jsFalsyStr, hq, hp, hc, decide_False, Bool.false_eq_true, if_neg,
            not_false_iff, if_pos, Option.some_inj] at h
          rw [← h]
        · have hc2 : p ∉ ids := fun hm => hc ((contains_iff_mem _ _).mpr hm)
          simp [jsFalsyStr, hq, hp, hc, hc2] at h
  · rw [synthEdge_eq_some ids r n] at h
    simp only [Option.some_inj] at h
    rw [← h]

theorem synth_targets_sublist (ids : List String) (root : Option String) (l : List Node) :
    ((l.filterMap (synthEdge? ids root)).map (fun e => e.target)).Sublist
      (l.map (fun nd : Node => nd.id)) := by
  induction l with
  | nil => exact List.Sublist.refl _
  | cons m t ih =>
    rw [List.filterMap_cons]
    rcases hm : synthEdge? ids root m with _ | ⟨em⟩
    · exact List.Sublist.cons _ ih
    · rw [List.map_cons, List.map_cons, synthEdge_target hm]
      exact List.Sublist.cons₂ _ ih

theorem find?_some_pred {α : Type} {p : α → Bool} {l : List α} {e : α}
    (h : l.find? p = some e) : p e = true := List.find?_some h

theorem find?_cons_eq_some {α : Type} {p : α → Bool} {a e : α} {l : List α}
    (h : (a :: l).find? p = some e) :
    (p a = true ∧ a = e) ∨ (p a = false ∧ l.find? p = some e) := by
  by_cases hpa : p a = true
  · rw [List.find?_cons_of_pos l hpa, Option.some_inj] at h
    exact Or.inl ⟨hpa, h⟩
  · rw [List.find?_cons_of_neg l hpa] at h
    exact Or.inr ⟨Bool.eq_false_iff.mpr hpa, h⟩

theorem find?_congr {α : Type} {p q : α → Bool} :
    ∀ {l : List α}, (∀ x ∈ l, p x = q x) → l.find? p = l.find? q := by
  intro l
  induction l with
  | nil => intro _; rfl
  | cons a t ih =>
    intro h
    have ha := h a (List.mem_cons_self a t)
    by_cases hpa : p a = true
    · rw [List.find?_cons_of_pos _ hpa, List.find?_cons_of_pos _ (ha ▸ hpa)]
    · have hqa : ¬ q a = true := by rw [← ha]; exact hpa
      rw [List.find?_cons_of_neg _ hpa, List.find?_cons_of_neg _ hqa]
      exact ih (fun x hx => h x (List.mem_cons_of_mem _ hx))

theorem dedupEdges_keeps_first :
    ∀ {l : List Edge} {seen : List String} {e : Edge},
      seen.contains (edgeKey e) = false →
      l.find? (fun x => edgeKey x == edgeKey e) = some e →
      e ∈ dedupEdges seen l := by
  intro l
  induction l with
  | nil =>
    intro seen e _ hf
    simp [List.find?] at hf
  | cons a t ih =>
    intro seen e hs hf
    rcases find?_cons_eq_some hf with ⟨hpa, heq⟩ | ⟨hpa, hrest⟩
    · subst heq
      rw [dedupEdges, if_neg (by rw [hs]; exact Bool.false_ne_true)]
      exact List.mem_cons_self _ _
    · rw [dedupEdges]
      by_cases hk : seen.contains (edgeKey a)
      · rw [if_pos hk]
        exact ih hs hrest
      · rw [if_neg hk]
        have hne : (edgeKey e == edgeKey a) = false := by
          rw [beq_eq_false_iff_ne]
          intro hcontra
          rw [beq_iff_eq.mpr hcontra.symm] at hpa
          cases hpa
        have hnew : (edgeKey a :: seen).contains (edgeKey e) = false := by
          rw [List.contains_cons, hne, hs]
          rfl
        exact List.mem_cons_of_mem _ (ih hnew hrest)

theorem dedupEdges_eq_self {l : List Edge} {seen : List String}
    (hnd : (l.map edgeKey).Nodup)
    (hdisj : ∀ e ∈ l, seen.contains (edgeKey e) = false) :
    dedupEdges seen l = l := by
  induction l generalizing seen with
  | nil => rfl
  | cons a t ih =>
    rw [List.map_cons, List.nodup_cons] at hnd
    rw [dedupEdges,
      if_neg (by rw [hdisj a (List.mem_cons_self a t)]; exact Bool.false_ne_true)]
    congr 1
    refine ih hnd.2 ?_
    intro e he
    rw [List.contains_cons]
    have h1 : (edgeKey e == edgeKey a) = false := by
      rw [beq_eq_false_iff_ne]
      intro hcontra
      exact hnd.1 (hcontra ▸ List.mem_map_of_mem edgeKey he)
    rw [h1, hdisj e (List.mem_cons_of_mem _ he)]
    rfl

theorem filter_head_decomp {α : Type} {p : α → Bool} {l : List α} {r : α} {rest : List α}
    (h : l.filter p = r :: rest) :
    ∃ pre post, l = pre ++ r :: post ∧ ∀ x ∈ pre, p x = false := by
  induction l generalizing rest with
  | nil => simp at h
  | cons a t ih =>
    by_cases hpa : p a = true
    · rw [List.filter_cons, if_pos hpa, List.cons.injEq] at h
      exact ⟨[], t, by rw [h.1, List.nil_append], by intro x hx; cases hx⟩
    · rw [List.filter_cons, if_neg hpa] at h
      rcases ih h with ⟨pre, post, hl, hpre⟩
      refine ⟨a :: pre, post, by rw [List.cons_append, hl], ?_⟩
      intro x hx
      rcases List.mem_cons.mp hx with heq | hmem
      · exact heq ▸ Bool.eq_false_iff.mpr hpa
      · exact hpre x hmem

theorem synthEdge_source_mem {ids : List String} {root : Option String} {m : Node} {e : Edge}
    (h : synthEdge? ids root m = some e)
    (hroot : ∀ r, root = some r → r ∈ ids) : e.source ∈ ids := by
  rcases root with _ | ⟨r⟩
  · unfold synthEdge? at h
    rcases hq : m.parentId with _ | ⟨p⟩
    · simp [jsFalsyStr, hq] at h
    · by_cases hp : p = ""
      · subst hp
        simp [jsFalsyStr, hq] at h
      · by_cases hc : ids.contains p
        · simp only [jsFalsyStr, hq, hp, hc, decide_False, Bool.false_eq_true, if_neg,
            not_false_iff, if_pos, Option.some_inj] at h
          rw [← h]
          exact (contains_iff_mem _ _).mp hc
        · have hc2 : p ∉ ids := fun hm2 => hc ((contains_iff_mem _ _).mpr hm2)
          simp [jsFalsyStr, hq, hp, hc, hc2] at h
  · have hr : r ∈ ids := hroot r rfl
    rw [synthEdge_eq_some ids r m] at h
    simp only [Option.some_inj] at h
    rw [← h]
    show expectedSynthSource ids r m ∈ ids
    unfold expectedSynthSource
    rcases m.parentId with _ | ⟨p⟩
    · exact hr
    · dsimp only
      by_cases hcond : p ≠ "" ∧ ids.contains p = true
      · rw [if_pos hcond]
        exact (contains_iff_mem _ _).mp hcond.2
      · rw [if_neg hcond]
        exact hr

theorem ensure_endpoint_ids (ns : List Node) (es : List Edge) :
    ∀ e ∈ (ensureGraphIntegrity ns es).1,
      e.source ∈ nodeIdsOf ns ∧ e.target ∈ nodeIdsOf ns := by
  intro e he
  have he2 : e ∈ dedupEdges [] (validEdges ns es) ++
      (danglingNodes ns (rootId ns (dedupEdges [] (validEdges ns es)))
          (dedupEdges [] (validEdges ns es))).filterMap
        (synthEdge? (nodeIdsOf ns) (rootId ns (dedupEdges [] (validEdges ns es)))) := he
  rcases List.mem_append.mp he2 with hu | hs
  · have hvalid := List.mem_filter.mp (mem_of_mem_dedupEdges hu)
    have hb := hvalid.2
    simp only [Bool.and_eq_true] at hb
    exact ⟨(contains_iff_mem _ _).mp hb.1, (contains_iff_mem _ _).mp hb.2⟩
  · rcases List.mem_filterMap.mp hs with ⟨m, hm, hsm⟩
    have hmns : m ∈ ns := (List.mem_filter.mp hm).1
    constructor
    · exact synthEdge_source_mem hsm (fun r hr => rootId_mem hr)
    · rw [synthEdge_target hsm]
      exact List.mem_map_of_mem (fun nd : Node => nd.id) hmns

/-- C3 (counterexample): two distinct node objects sharing the id `d` each
receive a synthesized edge `r→d` (the reconnection loop runs after
deduplication, against a fixed `connected` set), so the output contains TWO
edges with the same `(source,target)` pair. -/
theorem c3_counterexample :
    ¬ ((loadGraph c3Nodes []).edges.filter
        (fun e => e.source == "r" && e.target == "d")).length ≤ 1 := by
  decide

/-- C3 (amended): when the node ids are pairwise distinct, at most one edge
per ordered `(source,target)` pair survives `loadGraph`/`refreshGraph`; and
when additionally no node id contains the character `→` (the dedup key
separator), the edge kept for a pair is the first occurrence among the input
edges whose endpoints exist in the node set. -/
theorem c3_dedup_amended (ns : List Node) (es : List Edge)
    (hnd : (nodeIdsOf ns).Nodup)
    (harrow : ∀ n ∈ ns, '→' ∉ n.id.data) :
    (∀ s t : String,
      ((loadGraph ns es).edges.filter
        (fun e => e.source == s && e.target == t)).length ≤ 1) ∧
    (∀ (s t : String) (e : Edge),
      (validEdges ns es).find? (fun x => x.source == s && x.target == t) = some e →
      e ∈ (loadGraph ns es).edges) := by
  have hedges : (loadGraph ns es).edges =
      dedupEdges [] (validEdges ns es) ++
        (danglingNodes ns (rootId ns (dedupEdges [] (validEdges ns es)))
            (dedupEdges [] (validEdges ns es))).filterMap
          (synthEdge? (nodeIdsOf ns) (rootId ns (dedupEdges [] (validEdges ns es)))) := rfl
  have hnoarrow : ∀ x ∈ validEdges ns es, '→' ∉ x.source.data ∧ '→' ∉ x.target.data := by
    intro x hx
    have hmem := List.mem_filter.mp hx
    have hsrc : x.source ∈ nodeIdsOf ns := by
      have := hmem.2
      simp only [Bool.and_eq_true] at this
      exact (contains_iff_mem _ _).mp this.1
    have htgt : x.target ∈ nodeIdsOf ns := by
      have := hmem.2
      simp only [Bool.and_eq_true] at this
      exact (contains_iff_mem _ _).mp this.2
    rcases List.mem_map.mp hsrc with ⟨n1, hn1, hid1⟩
    rcases List.mem_map.mp htgt with ⟨n2, hn2, hid2⟩
    exact ⟨hid1 ▸ harrow n1 hn1, hid2 ▸ harrow n2 hn2⟩
  constructor
  · -- at most one edge per (source,target) pair
    intro s t
    rw [hedges, List.filter_append, List.length_append]
    have hu1 : ((dedupEdges [] (validEdges ns es)).filter
        (fun e => e.source == s && e.target == t)).length ≤ 1 := by
      refine length_filter_le_one_of_nodup_map edgeKey
        (dedupEdges_keys_nodup (validEdges ns es) []).1 _ (s ++ "→" ++ t) ?_
      intro x _ hx
      simp only [Bool.and_eq_true, beq_iff_eq] at hx
      unfold edgeKey
      rw [hx.1, hx.2]
    have hsynthnd : (((danglingNodes ns (rootId ns (dedupEdges [] (validEdges ns es)))
        (dedupEdges [] (validEdges ns es))).filterMap
          (synthEdge? (nodeIdsOf ns) (rootId ns (dedupEdges [] (validEdges ns es))))).map
        (fun e => e.target)).Nodup := by
      refine List.Nodup.sublist (synth_targets_sublist _ _ _) ?_
      exact List.Nodup.sublist ((List.filter_sublist ns).map (fun nd : Node => nd.id)) hnd
    have hs1 : (((danglingNodes ns (rootId ns (dedupEdges [] (validEdges ns es)))
        (dedupEdges [] (validEdges ns es))).filterMap
          (synthEdge? (nodeIdsOf ns) (rootId ns (dedupEdges [] (validEdges ns es))))).filter
        (fun e => e.source == s && e.target == t)).length ≤ 1 := by
      refine length_filter_le_one_of_nodup_map (fun e => e.target) hsynthnd _ t ?_
      intro x _ hx
      simp only [Bool.and_eq_true, beq_iff_eq] at hx
      exact hx.2
    rcases hcase : (dedupEdges [] (validEdges ns es)).filter
        (fun e => e.source == s && e.target == t) with _ | ⟨e1, r1⟩
    · rw [hcase]
      simpa using hs1
    · have he1 : e1 ∈ (dedupEdges [] (validEdges ns es)).filter
          (fun e => e.source == s && e.target == t) := hcase ▸ List.mem_cons_self _ _
      have he1u : e1 ∈ dedupEdges [] (validEdges ns es) := (List.mem_filter.mp he1).1
      have he1t : e1.target = t := by
        have := (List.mem_filter.mp he1).2
        simp only [Bool.and_eq_true, beq_iff_eq] at this
        exact this.2
      have hzero : ((danglingNodes ns (rootId ns (dedupEdges [] (validEdges ns es)))
          (dedupEdges [] (validEdges ns es))).filterMap
            (synthEdge? (nodeIdsOf ns) (rootId ns (dedupEdges [] (validEdges ns es))))).filter
          (fun e => e.source == s && e.target == t) = [] := by
        refine List.filter_eq_nil_iff.mpr ?_
        intro e2 he2 hpred
        simp only [Bool.and_eq_true, beq_iff_eq] at hpred
        rcases List.mem_filterMap.mp he2 with ⟨m, hm, hsm⟩
        have hmt : e2.target = m.id := synthEdge_target hsm
        have hmdang := List.mem_filter.mp hm
        have hmconn : (connectedIds (rootId ns (dedupEdges [] (validEdges ns es)))
            (dedupEdges [] (validEdges ns es))).contains m.id = true := by
          refine (contains_iff_mem _ _).mpr ?_
          unfold connectedIds
          refine List.mem_append_right _ ?_
          refine List.mem_flatMap.mpr ⟨e1, he1u, ?_⟩
          rw [← hmt, hpred.2, ← he1t]
          exact List.mem_cons_of_mem _ (List.mem_cons_self _ _)
        have := hmdang.2
        rw [hmconn] at this
        simp at this
      rw [hzero] at hs1 ⊢
      simp only [List.length_nil]
      have : (e1 :: r1).length ≤ 1 := hcase ▸ hu1
      omega
  · -- the first valid occurrence of a pair is kept
    intro s t e hf
    have hemem : e ∈ validEdges ns es := List.mem_of_find?_eq_some hf
    have hpred := find?_some_pred hf
    simp only [Bool.and_eq_true, beq_iff_eq] at hpred
    have hcongr : ∀ x ∈ validEdges ns es,
        (x.source == s && x.target == t) = (edgeKey x == edgeKey e) := by
      intro x hx
      cases hp : (x.source == s && x.target == t) <;> cases hq : (edgeKey x == edgeKey e)
      · rfl
      · exfalso
        have hkey := beq_iff_eq.mp hq
        rcases edgeKey_inj (hnoarrow x hx).1 (hnoarrow e hemem).1 hkey with ⟨hs2, ht2⟩
        rw [Bool.eq_false_iff] at hp
        apply hp
        simp only [Bool.and_eq_true, beq_iff_eq]
        exact ⟨hs2.trans hpred.1, ht2.trans hpred.2⟩
      · exfalso
        simp only [Bool.and_eq_true, beq_iff_eq] at hp
        have hkey : edgeKey x = edgeKey e := by
          unfold edgeKey
          rw [hp.1, hp.2, hpred.1, hpred.2]
        rw [Bool.eq_false_iff] at hq
        exact hq (beq_iff_eq.mpr hkey)
      · rfl
    rw [find?_congr hcongr] at hf
    rw [hedges]
    exact List.mem_append_left _ (dedupEdges_keeps_first rfl hf)

/-- C10 (counterexample): re-running `refreshGraph` on the published output
of `loadGraph` for two node objects sharing the id `d` returns `fixed = 1`,
not 0: pass one synthesized two identical `r→d` edges and pass two
deduplicates them. -/
theorem c10_counterexample :
    ¬ (refreshGraph (loadGraph c3Nodes []).nodes (loadGraph c3Nodes []).edges).fixed = 0 := by
  decide

/-- C10 (amended): when node ids are pairwise distinct and no id contains
the dedup key separator `→`, re-running `refreshGraph` on the node and edge
arrays published by a previous `loadGraph` returns `fixed = 0` and leaves
the edge list unchanged. -/
theorem c10_repairIdempotent_amended (ns : List Node) (es : List Edge)
    (hnd : (nodeIdsOf ns).Nodup)
    (harrow : ∀ n ∈ ns, '→' ∉ n.id.data) :
    (refreshGraph (loadGraph ns es).nodes (loadGraph ns es).edges).fixed = 0 ∧
    (refreshGraph (loadGraph ns es).nodes (loadGraph ns es).edges).edges =
      (loadGraph ns es).edges := by
  set es1 := (ensureGraphIntegrity ns es).1 with hes1def
  have hes1eq : es1 = dedupEdges [] (validEdges ns es) ++
      (danglingNodes ns (rootId ns (dedupEdges [] (validEdges ns es)))
          (dedupEdges [] (validEdges ns es))).filterMap
        (synthEdge? (nodeIdsOf ns) (rootId ns (dedupEdges [] (validEdges ns es)))) := rfl
  have hep := ensure_endpoint_ids ns es
  have harrowIds : ∀ x ∈ es1, '→' ∉ x.source.data ∧ '→' ∉ x.target.data := by
    intro x hx
    rcases hep x hx with ⟨h1, h2⟩
    rcases List.mem_map.mp h1 with ⟨n1, hn1, hid1⟩
    rcases List.mem_map.mp h2 with ⟨n2, hn2, hid2⟩
    exact ⟨hid1 ▸ harrow n1 hn1, hid2 ▸ harrow n2 hn2⟩
  have hvalid : validEdges ns es1 = es1 := by
    refine List.filter_eq_self.mpr ?_
    intro e he
    rcases hep e he with ⟨h1, h2⟩
    simp only [Bool.and_eq_true]
    exact ⟨(contains_iff_mem _ _).mpr h1, (contains_iff_mem _ _).mpr h2⟩
  have hsynthtargets : (((danglingNodes ns (rootId ns (dedupEdges [] (validEdges ns es)))
      (dedupEdges [] (validEdges ns es))).filterMap
        (synthEdge? (nodeIdsOf ns) (rootId ns (dedupEdges [] (validEdges ns es))))).map
      (fun e => e.target)).Nodup := by
    refine List.Nodup.sublist (synth_targets_sublist _ _ _) ?_
    exact List.Nodup.sublist ((List.filter_sublist ns).map (fun nd : Node => nd.id)) hnd
  have hcross : ∀ e1 ∈ dedupEdges [] (validEdges ns es),
      ∀ m ∈ danglingNodes ns (rootId ns (dedupEdges [] (validEdges ns es)))
        (dedupEdges [] (validEdges ns es)),
      e1.source = m.id ∨ e1.target = m.id → False := by
    intro e1 he1 m hm hend
    have hmf := (List.mem_filter.mp hm).2
    simp only [Bool.and_eq_true] at hmf
    have hcontains : (connectedIds (rootId ns (dedupEdges [] (validEdges ns es)))
        (dedupEdges [] (validEdges ns es))).contains m.id = true := by
      refine (contains_iff_mem _ _).mpr ?_
      unfold connectedIds
      refine List.mem_append_right _ (List.mem_flatMap.mpr ⟨e1, he1, ?_⟩)
      rcases hend with h1 | h1
      · rw [← h1]; exact List.mem_cons_self _ _
      · rw [← h1]; exact List.mem_cons_of_mem _ (List.mem_cons_self _ _)
    rw [hcontains] at hmf
    simp at hmf
  have hkeys : (es1.map edgeKey).Nodup := by
    rw [hes1eq, List.map_append, List.nodup_append]
    refine ⟨(dedupEdges_keys_nodup (validEdges ns es) []).1, ?_, ?_⟩
    · have hsynthnd := List.Nodup.of_map (fun e : Edge => e.target) hsynthtargets
      refine List.Nodup.map_on ?_ hsynthnd
      intro x hx y hy hkey
      have hxes1 : x ∈ es1 := by rw [hes1eq]; exact List.mem_append_right _ hx
      have hyes1 : y ∈ es1 := by rw [hes1eq]; exact List.mem_append_right _ hy
      rcases edgeKey_inj (harrowIds x hxes1).1 (harrowIds y hyes1).1 hkey with ⟨hs2, ht2⟩
      exact List.inj_on_of_nodup_map hsynthtargets hx hy ht2
    · intro k hk1 hk2
      rcases List.mem_map.mp hk1 with ⟨e1, he1, hke1⟩
      rcases List.mem_map.mp hk2 with ⟨e2, he2, hke2⟩
      have he1es1 : e1 ∈ es1 := by rw [hes1eq]; exact List.mem_append_left _ he1
      have he2es1 : e2 ∈ es1 := by rw [hes1eq]; exact List.mem_append_right _ he2
      have hkey : edgeKey e1 = edgeKey e2 := by rw [hke1, hke2]
      rcases edgeKey_inj (harrowIds e1 he1es1).1 (harrowIds e2 he2es1).1 hkey with ⟨hs2, ht2⟩
      rcases List.mem_filterMap.mp he2 with ⟨m, hm, hsm⟩
      exact hcross e1 he1 m hm (Or.inr (ht2.trans (synthEdge_target hsm)))
  have hdedup2 : dedupEdges [] es1 = es1 := dedupEdges_eq_self hkeys (fun e _ => rfl)
  have hconn2 : ∀ n ∈ ns, n.id ∈ connectedIds (rootId ns es1) es1 := by
    intro n hn
    by_cases hepn : ∃ e ∈ es1, e.source = n.id ∨ e.target = n.id
    · rcases hepn with ⟨e, he, hend⟩
      unfold connectedIds
      refine List.mem_append_right _ (List.mem_flatMap.mpr ⟨e, he, ?_⟩)
      rcases hend with h1 | h1
      · rw [← h1]; exact List.mem_cons_self _ _
      · rw [← h1]; exact List.mem_cons_of_mem _ (List.mem_cons_self _ _)
    · have hepu : ∀ e ∈ dedupEdges [] (validEdges ns es),
          ¬(e.source = n.id ∨ e.target = n.id) := by
        intro e he hcon
        exact hepn ⟨e, by rw [hes1eq]; exact List.mem_append_left _ he, hcon⟩
      by_cases hconn1 : n.id ∈ connectedIds (rootId ns (dedupEdges [] (validEdges ns es)))
          (dedupEdges [] (validEdges ns es))
      · unfold connectedIds at hconn1
        rcases List.mem_append.mp hconn1 with hl | hr2
        swap
        · exfalso
          rcases List.mem_flatMap.mp hr2 with ⟨e, he, hend⟩
          apply hepu e he
          simp only [List.mem_cons, List.mem_singleton, List.not_mem_nil, or_false] at hend
          rcases hend with h1 | h1
          · exact Or.inl h1.symm
          · exact Or.inr h1.symm
        · rcases hroot1 : rootId ns (dedupEdges [] (validEdges ns es)) with _ | ⟨rv⟩
          · rw [hroot1] at hl
            cases hl
          · rw [hroot1] at hl
            simp only [List.mem_singleton] at hl
            rcases hfil : ns.filter (fun m =>
                !(targetedIds (dedupEdges [] (validEdges ns es))).contains m.id)
                with _ | ⟨r1, rest⟩
            · exfalso
              have hb := List.filter_eq_nil_iff.mp hfil n hn
              have hb2 : (targetedIds (dedupEdges [] (validEdges ns es))).contains n.id
                  = true := by simpa using hb
              rcases List.mem_map.mp ((contains_iff_mem _ _).mp hb2) with ⟨e, he, htg⟩
              exact hepu e he (Or.inr htg)
            · have hrv : rv = r1.id := by
                unfold rootId at hroot1
                rw [hfil] at hroot1
                dsimp only at hroot1
                exact (Option.some_inj.mp hroot1).symm
              have hr1mem : r1 ∈ ns.filter (fun m =>
                  !(targetedIds (dedupEdges [] (validEdges ns es))).contains m.id) := by
                rw [hfil]; exact List.mem_cons_self _ _
              have hr1f : (targetedIds (dedupEdges [] (validEdges ns es))).contains r1.id
                  = false := by simpa using (List.mem_filter.mp hr1mem).2
              rcases filter_head_decomp hfil with ⟨pre, post, hns, hpre⟩
              have hr1t : (targetedIds es1).contains r1.id = false := by
                rw [Bool.eq_false_iff]
                intro hc
                rcases List.mem_map.mp ((contains_iff_mem _ _).mp hc) with ⟨e, he, htg⟩
                have he2 : e ∈ dedupEdges [] (validEdges ns es) ++
                    (danglingNodes ns (rootId ns (dedupEdges [] (validEdges ns es)))
                        (dedupEdges [] (validEdges ns es))).filterMap
                      (synthEdge? (nodeIdsOf ns)
                        (rootId ns (dedupEdges [] (validEdges ns es)))) := by
                  rw [← hes1eq]; exact he
                rcases List.mem_append.mp he2 with heu | hesyn
                · have hcu : (targetedIds (dedupEdges [] (validEdges ns es))).contains r1.id
                      = true :=
                    (contains_iff_mem _ _).mpr (List.mem_map.mpr ⟨e, heu, htg⟩)
                  rw [hr1f] at hcu
                  cases hcu
                · rcases List.mem_filterMap.mp hesyn with ⟨m, hm, hsm⟩
                  have hmid : m.id = r1.id := by rw [← synthEdge_target hsm, htg]
                  have hmf := (List.mem_filter.mp hm).2
                  simp only [Bool.and_eq_true] at hmf
                  have hmc : (connectedIds (rootId ns (dedupEdges [] (validEdges ns es)))
                      (dedupEdges [] (validEdges ns es))).contains m.id = true := by
                    refine (contains_iff_mem _ _).mpr ?_
                    unfold connectedIds
                    rw [hroot1]
                    refine List.mem_append_left _ ?_
                    simp [hmid, hrv]
                  rw [hmc] at hmf
                  simp at hmf
              have hpre2 : ∀ x ∈ pre, (targetedIds es1).contains x.id = true := by
                intro x hx
                have h1b : (targetedIds (dedupEdges [] (validEdges ns es))).contains x.id
                    = true := by simpa using hpre x hx
                rcases List.mem_map.mp ((contains_iff_mem _ _).mp h1b) with ⟨e, he, htg⟩
                refine (contains_iff_mem _ _).mpr (List.mem_map.mpr ⟨e, ?_, htg⟩)
                rw [hes1eq]
                exact List.mem_append_left _ he
              have hroot2 : rootId ns es1 = some r1.id := by
                unfold rootId
                have hprenil : pre.filter (fun m => !(targetedIds es1).contains m.id) = [] := by
                  refine List.filter_eq_nil_iff.mpr ?_
                  intro x hx hcon
                  have := hpre2 x hx
                  simp only [this] at hcon
                  cases hcon
                have hr1p2 : (!(targetedIds es1).contains r1.id) = true := by
                  rw [hr1t]; rfl
                have hfil2 : ns.filter (fun m => !(targetedIds es1).contains m.id) =
                    r1 :: post.filter (fun m => !(targetedIds es1).contains m.id) := by
                  rw [hns, List.filter_append, hprenil, List.nil_append,
                    List.filter_cons, if_pos hr1p2]
                rw [hfil2]
              unfold connectedIds
              rw [hroot2]
              refine List.mem_append_left _ ?_
              simp [hl, hrv]
      · exfalso
        rcases hroot1 : rootId ns (dedupEdges [] (validEdges ns es)) with _ | ⟨rv⟩
        · unfold rootId at hroot1
          rcases hfil : ns.filter (fun m =>
              !(targetedIds (dedupEdges [] (validEdges ns es))).contains m.id)
              with _ | ⟨r1, rest⟩
          · have hb := List.filter_eq_nil_iff.mp hfil n hn
            have hb2 : (targetedIds (dedupEdges [] (validEdges ns es))).contains n.id
                = true := by simpa using hb
            rcases List.mem_map.mp ((contains_iff_mem _ _).mp hb2) with ⟨e, he, htg⟩
            exact hepu e he (Or.inr htg)
          · rw [hfil] at hroot1
            dsimp only at hroot1
            exact absurd hroot1 (by simp)
        · rw [hroot1] at hconn1
          have hdang : n ∈ danglingNodes ns (some rv) (dedupEdges [] (validEdges ns es)) := by
            refine List.mem_filter.mpr ⟨hn, ?_⟩
            have hc : (connectedIds (some rv) (dedupEdges [] (validEdges ns es))).contains n.id
                = false := by
              rw [Bool.eq_false_iff]
              intro hcc
              exact hconn1 ((contains_iff_mem _ _).mp hcc)
            simp only [hc, Bool.not_false, Bool.true_and]
            refine decide_eq_true ?_
            intro hcontra
            apply hconn1
            unfold connectedIds
            exact List.mem_append_left _ (by simp [hcontra])
          rcases @synthEdge_of_root (nodeIdsOf ns) rv n with ⟨e, hse, htgt⟩
          apply hepn
          refine ⟨e, ?_, Or.inr htgt⟩
          rw [hes1eq, hroot1]
          exact List.mem_append_right _ (List.mem_filterMap.mpr ⟨n, hdang, hse⟩)
  have hdang2 : danglingNodes ns (rootId ns es1) es1 = [] := by
    refine List.filter_eq_nil_iff.mpr ?_
    intro n hn hcontra
    simp only [Bool.and_eq_true] at hcontra
    have h1 := hcontra.1
    rw [(contains_iff_mem _ _).mpr (hconn2 n hn)] at h1
    cases h1
  have hkey : ensureGraphIntegrity ns es1 = (es1, 0) := by
    unfold ensureGraphIntegrity
    simp only [hvalid, hdedup2, hdang2, List.filterMap_nil, List.append_nil,
      Nat.sub_self, List.length_nil]
  constructor
  · show (ensureGraphIntegrity ns es1).2 = 0
    rw [hkey]
  · show (ensureGraphIntegrity ns es1).1 = es1
    rw [hkey]

/-- Witness for `c10_repairIdempotent_amended` at a well-formed input with a
duplicate edge: the second repair pass is the identity with `fixed = 0`. -/
theorem c10_repairIdempotent_amended_witness :
    ((nodeIdsOf c3WitnessNodes).Nodup ∧ ∀ n ∈ c3WitnessNodes, '→' ∉ n.id.data) ∧
    (refreshGraph (loadGraph c3WitnessNodes c3WitnessEdges).nodes
        (loadGraph c3WitnessNodes c3WitnessEdges).edges).fixed = 0 ∧
    (refreshGraph (loadGraph c3WitnessNodes c3WitnessEdges).nodes
        (loadGraph c3WitnessNodes c3WitnessEdges).edges).edges =
      (loadGraph c3WitnessNodes c3WitnessEdges).edges :=
  ⟨⟨by decide, by decide⟩,
   c10_repairIdempotent_amended c3WitnessNodes c3WitnessEdges (by decide) (by decide)⟩

/- ──────────────────────────────────────────────────────────────────────
   Positional list access lemmas for the layout embedding
   ────────────────────────────────────────────────────────────────────── -/

theorem updAt_get? {α : Type} (f : α → α) :
    ∀ (l : List α) (i j : Nat),
      (updAt i f l).get? j = if j = i then (l.get? j).map f else l.get? j := by
  intro l
  induction l with
  | nil =>
    intro i j
    simp only [updAt, List.get?]
    split <;> rfl
  | cons a t ih =>
    intro i j
    cases i with
    | zero =>
      cases j with
      | zero => simp [updAt]
      | succ jj => simp [updAt]
    | succ ii =>
      cases j with
      | zero => simp [updAt]
      | succ jj =>
        simp only [updAt, List.get?]
        rw [ih ii jj]
        by_cases hj : jj = ii
        · rw [if_pos hj, if_pos (by rw [hj])]
        · rw [if_neg hj, if_neg (by intro hc; exact hj (Nat.succ_injective hc))]

theorem updAt_length {α : Type} (f : α → α) :
    ∀ (l : List α) (i : Nat), (updAt i f l).length = l.length := by
  intro l
  induction l with
  | nil => intro i; cases i <;> rfl
  | cons a t ih =>
    intro i
    cases i with
    | zero => rfl
    | succ ii => simp [updAt, ih ii]

theorem getD_eq_get?_getD {α : Type} (l : List α) (i : Nat) (dflt : α) :
    l.getD i dflt = (l.get? i).getD dflt := rfl

theorem setAt_getD {α : Type} (i : Nat) (x : α) (l : List α) (j : Nat) (dflt : α) :
    (setAt i x l).getD j dflt =
      if j = i ∧ j < l.length then x else l.getD j dflt := by
  rw [getD_eq_get?_getD, setAt, updAt_get?]
  by_cases hj : j = i
  · subst hj
    by_cases hlt : j < l.length
    · rcases List.get?_eq_get hlt with hget
      rw [if_pos rfl, if_pos ⟨rfl, hlt⟩, hget]
      rfl
    · have hnone : l.get? j = none := List.get?_eq_none.mpr (Nat.le_of_not_lt hlt)
      rw [if_pos rfl, if_neg (fun hc => hlt hc.2), hnone, getD_eq_get?_getD, hnone]
      rfl
  · rw [if_neg hj, if_neg (fun hc => hj hc.1)]
    rfl

theorem setAt_length {α : Type} (i : Nat) (x : α) (l : List α) :
    (setAt i x l).length = l.length := updAt_length _ l i

theorem replicate_getD {α : Type} (x dflt : α) :
    ∀ (n i : Nat), i < n → (List.replicate n x).getD i dflt = x := by
  intro n
  induction n with
  | zero => intro i h; cases h
  | succ m ih =>
    intro i h
    cases i with
    | zero => rfl
    | succ j => exact ih j (Nat.lt_of_succ_lt_succ h)

theorem insertId_subset {v : List String} {id x : String} (h : x ∈ v) : x ∈ insertId v id := by
  unfold insertId
  split
  · exact h
  · exact List.mem_cons_of_mem _ h

theorem insertId_self (v : List String) (id : String) : id ∈ insertId v id := by
  unfold insertId
  split
  next h => exact (contains_iff_mem _ _).mp h
  next h => exact List.mem_cons_self _ _

theorem mem_of_mem_insertId {v : List String} {id x : String}
    (h : x ∈ insertId v id) : x = id ∨ x ∈ v := by
  unfold insertId at h
  split at h
  · exact Or.inr h
  · rcases List.mem_cons.mp h with h1 | h1
    · exact Or.inl h1
    · exact Or.inr h1

theorem lastIdxOf_spec :
    ∀ {ids : List String} {id : String} {i : Nat},
      lastIdxOf ids id = some i → i < ids.length ∧ ids.getD i "" = id := by
  intro ids
  induction ids with
  | nil => intro id i h; cases h
  | cons a rest ih =>
    intro id i h
    rw [lastIdxOf] at h
    rcases hr : lastIdxOf rest id with _ | ⟨j⟩
    · rw [hr] at h
      by_cases ha : (a == id) = true
      · rw [if_pos ha, Option.some_inj] at h
        subst h
        exact ⟨Nat.succ_pos _, beq_iff_eq.mp ha⟩
      · rw [if_neg ha] at h
        cases h
    · rw [hr, Option.some_inj] at h
      subst h
      rcases ih hr with ⟨hlt, hget⟩
      exact ⟨Nat.succ_lt_succ hlt, hget⟩

theorem lastIdxOf_none :
    ∀ {ids : List String} {id : String}, lastIdxOf ids id = none ↔ id ∉ ids := by
  intro ids
  induction ids with
  | nil => intro id; simp [lastIdxOf]
  | cons a rest ih =>
    intro id
    rw [lastIdxOf]
    rcases hr : lastIdxOf rest id with _ | ⟨j⟩
    · constructor
      · intro h hmem
        by_cases ha : (a == id) = true
        · rw [if_pos ha] at h
          cases h
        · rcases List.mem_cons.mp hmem with h1 | h1
          · exact ha (beq_iff_eq.mpr h1.symm)
          · exact (ih.mp hr) h1
      · intro hmem
        rw [if_neg (fun ha => hmem (List.mem_cons.mpr (Or.inl (beq_iff_eq.mp ha).symm)))]
    · constructor
      · intro h
        cases h
      · intro hmem
        exact absurd (ih.mpr (fun h1 => hmem (List.mem_cons_of_mem _ h1))) (by rw [hr]; simp)

theorem lastIdxOf_nodup :
    ∀ {ids : List String}, ids.Nodup → ∀ {i : Nat}, i < ids.length →
      lastIdxOf ids (ids.getD i "") = some i := by
  intro ids
  induction ids with
  | nil => intro _ i h; cases h
  | cons a rest ih =>
    intro hnd i hi
    have hnd2 := List.nodup_cons.mp hnd
    cases i with
    | zero =>
      have hnone : lastIdxOf rest a = none := lastIdxOf_none.mpr hnd2.1
      rw [lastIdxOf]
      have hgd : (a :: rest).getD 0 "" = a := rfl
      rw [hgd, hnone, if_pos (beq_iff_eq.mpr rfl)]
    | succ j =>
      have hj : j < rest.length := Nat.lt_of_succ_lt_succ hi
      have hgd : (a :: rest).getD (j + 1) "" = rest.getD j "" := rfl
      rw [hgd, lastIdxOf, ih hnd2.2 hj]

theorem lastIdxOf_inj {ids : List String} {id1 id2 : String} {i : Nat}
    (h1 : lastIdxOf ids id1 = some i) (h2 : lastIdxOf ids id2 = some i) : id1 = id2 := by
  rw [← (lastIdxOf_spec h1).2, ← (lastIdxOf_spec h2).2]

/- ──────────────────────────────────────────────────────────────────────
   BFS invariant of _calcTreeDepths (for C4)
   ────────────────────────────────────────────────────────────────────── -/

theorem bfsInv_weaken {keys : List (String × String)} {es : List Edge}
    {d : List ℤ} {v : List String} {q : List Nat}
    (inv : BfsInvS keys es d v q) : BfsInvS keys es d v [] :=
  ⟨inv.dlen, (by intro i h; cases h), inv.vdepth, inv.unvis, inv.parent⟩

theorem bfsInv_drop {keys : List (String × String)} {es : List Edge}
    {d : List ℤ} {v : List String} {i : Nat} {q : List Nat}
    (inv : BfsInvS keys es d v (i :: q)) : BfsInvS keys es d v q :=
  ⟨inv.dlen, fun j hj => inv.qok j (List.mem_cons_of_mem _ hj), inv.vdepth, inv.unvis,
   inv.parent⟩

theorem bfsInv_base (keys : List (String × String)) (es : List Edge) :
    BfsInvS keys es (List.replicate keys.length (-1)) [] [] := by
  refine ⟨List.length_replicate _ _, ?_, ?_, ?_, ?_⟩
  · intro i h; cases h
  · intro id h; cases h
  · intro i hi _
    exact replicate_getD _ _ _ _ hi
  · intro id h; cases h

theorem bfsInit_step_inv (keys : List (String × String)) (es : List Edge)
    (hnd : (idsOfKeys keys).Nodup)
    {d : List ℤ} {v : List String} {q : List Nat}
    (inv : BfsInvS keys es d v q)
    (hzero : ∀ id ∈ v, incomingCount (idsOfKeys keys) es id = 0)
    {i : Nat} (hi : i < keys.length)
    (hinc : incomingCount (idsOfKeys keys) es ((idsOfKeys keys).getD i "") = 0) :
    BfsInvS keys es (setAt i 0 d) (insertId v ((idsOfKeys keys).getD i "")) (q ++ [i]) ∧
    (∀ id ∈ insertId v ((idsOfKeys keys).getD i ""),
      incomingCount (idsOfKeys keys) es id = 0) := by
  have hids : (idsOfKeys keys).length = keys.length := List.length_map _ _
  have hzero2 : ∀ id ∈ insertId v ((idsOfKeys keys).getD i ""),
      incomingCount (idsOfKeys keys) es id = 0 := by
    intro id hid
    rcases mem_of_mem_insertId hid with h1 | h1
    · exact h1 ▸ hinc
    · exact hzero id h1
  refine ⟨⟨?_, ?_, ?_, ?_, ?_⟩, hzero2⟩
  · rw [setAt_length]; exact inv.dlen
  · intro j hj
    rcases List.mem_append.mp hj with h1 | h1
    · rcases inv.qok j h1 with ⟨hlt, hv⟩
      exact ⟨hlt, insertId_subset hv⟩
    · simp only [List.mem_singleton] at h1
      subst h1
      exact ⟨hi, insertId_self _ _⟩
  · intro id hid
    rcases mem_of_mem_insertId hid with h1 | h1
    · subst h1
      refine ⟨i, lastIdxOf_nodup hnd (by rw [hids]; exact hi), ?_⟩
      rw [setAt_getD, if_pos ⟨rfl, by rw [inv.dlen]; exact hi⟩]
    · rcases inv.vdepth id h1 with ⟨idx, hlast, hd⟩
      refine ⟨idx, hlast, ?_⟩
      rw [setAt_getD]
      by_cases hcase : idx = i ∧ idx < d.length
      · rw [if_pos hcase]
      · rw [if_neg hcase]; exact hd
  · intro j hj hnot
    have hjne : j ≠ i := by
      intro hc
      subst hc
      exact hnot (insertId_self _ _)
    have hold : (idsOfKeys keys).getD j "" ∉ v := fun hm => hnot (insertId_subset hm)
    rw [setAt_getD, if_neg (fun hc => hjne hc.1)]
    exact inv.unvis j hj hold
  · intro id hid
    exact Or.inl (hzero2 id hid)

theorem bfsInit_fold_inv (keys : List (String × String)) (es : List Edge)
    (hnd : (idsOfKeys keys).Nodup) :
    ∀ (roots : List Nat) (st : List ℤ × List String × List Nat),
      (∀ i ∈ roots, i < keys.length ∧
        incomingCount (idsOfKeys keys) es ((idsOfKeys keys).getD i "") = 0) →
      BfsInvS keys es st.1 st.2.1 st.2.2 →
      (∀ id ∈ st.2.1, incomingCount (idsOfKeys keys) es id = 0) →
      BfsInvS keys es
        (roots.foldl (fun st i =>
          (setAt i 0 st.1, insertId st.2.1 ((idsOfKeys keys).getD i ""), st.2.2 ++ [i])) st).1
        (roots.foldl (fun st i =>
          (setAt i 0 st.1, insertId st.2.1 ((idsOfKeys keys).getD i ""), st.2.2 ++ [i])) st).2.1
        (roots.foldl (fun st i =>
          (setAt i 0 st.1, insertId st.2.1 ((idsOfKeys keys).getD i ""), st.2.2 ++ [i])) st).2.2 := by
  intro roots
  induction roots with
  | nil => intro st _ inv _; exact inv
  | cons i t ih =>
    intro st hgen inv hzero
    rcases hgen i (List.mem_cons_self i t) with ⟨hi, hinc⟩
    rcases bfsInit_step_inv keys es hnd inv hzero hi hinc with ⟨inv2, hzero2⟩
    exact ih _ (fun j hj => hgen j (List.mem_cons_of_mem _ hj)) inv2 hzero2

theorem bfsInit_inv (keys : List (String × String)) (es : List Edge)
    (hnd : (idsOfKeys keys).Nodup)
    (hgen : ∀ i ∈ bfsRoots keys es, i < keys.length ∧
      incomingCount (idsOfKeys keys) es ((idsOfKeys keys).getD i "") = 0) :
    BfsInvS keys es (bfsInit keys es).1 (bfsInit keys es).2.1 (bfsInit keys es).2.2 := by
  exact bfsInit_fold_inv keys es hnd (bfsRoots keys es)
    (List.replicate keys.length (-1), [], []) hgen (bfsInv_base keys es)
    (by intro id h; cases h)

theorem bfsChildStep_inv (keys : List (String × String)) (es : List Edge)
    (hnd : (idsOfKeys keys).Nodup)
    {i : Nat} (hi : i < keys.length)
    {d : List ℤ} {v : List String} {q : List Nat}
    (inv : BfsInvS keys es d v q)
    (hsrc : (idsOfKeys keys).getD i "" ∈ v)
    {c : String}
    (hedge : ∃ e ∈ validEdgesK (idsOfKeys keys) es,
      e.source = (idsOfKeys keys).getD i "" ∧ e.target = c) :
    BfsInvS keys es
      (bfsChildStep (idsOfKeys keys) i (d, v, q) c).1
      (bfsChildStep (idsOfKeys keys) i (d, v, q) c).2.1
      (bfsChildStep (idsOfKeys keys) i (d, v, q) c).2.2 ∧
    (∀ x ∈ v, x ∈ (bfsChildStep (idsOfKeys keys) i (d, v, q) c).2.1) := by
  have hids : (idsOfKeys keys).length = keys.length := List.length_map _ _
  unfold bfsChildStep
  by_cases hc : v.contains c = true
  · rw [if_pos hc]
    exact ⟨inv, fun x h => h⟩
  · rw [if_neg hc]
    rcases hl : lastIdxOf (idsOfKeys keys) c with _ | ⟨ci⟩
    · exact ⟨inv, fun x h => h⟩
    · dsimp only
      have hcnotv : c ∉ v := fun hm => hc ((contains_iff_mem _ _).mpr hm)
      rcases lastIdxOf_spec hl with ⟨hci_len, hci_id⟩
      have hci_keys : ci < keys.length := by rw [← hids]; exact hci_len
      have hdi : 0 ≤ d.getD i (-1) := by
        rcases inv.vdepth _ hsrc with ⟨j, hlast, hd⟩
        have hlast2 : lastIdxOf (idsOfKeys keys) ((idsOfKeys keys).getD i "") = some i :=
          lastIdxOf_nodup hnd (by rw [hids]; exact hi)
        rw [hlast2, Option.some_inj] at hlast
        exact hlast ▸ hd
      have hcine : ci ≠ i := by
        intro hcc
        subst hcc
        exact hcnotv (hci_id ▸ hsrc)
      refine ⟨⟨?_, ?_, ?_, ?_, ?_⟩, fun x h => insertId_subset h⟩
      · rw [setAt_length]; exact inv.dlen
      · intro j hj
        rcases List.mem_append.mp hj with h1 | h1
        · rcases inv.qok j h1 with ⟨hlt, hv⟩
          exact ⟨hlt, insertId_subset hv⟩
        · simp only [List.mem_singleton] at h1
          subst h1
          exact ⟨hci_keys, hci_id ▸ insertId_self _ _⟩
      · intro id hid
        rcases mem_of_mem_insertId hid with h1 | h1
        · subst h1
          refine ⟨ci, hl, ?_⟩
          rw [setAt_getD, if_pos ⟨rfl, by rw [inv.dlen]; exact hci_keys⟩]
          omega
        · rcases inv.vdepth id h1 with ⟨idx, hlast, hd⟩
          have hne : idx ≠ ci := by
            intro hcc
            subst hcc
            exact hcnotv ((lastIdxOf_inj hlast hl) ▸ h1)
          refine ⟨idx, hlast, ?_⟩
          rw [setAt_getD, if_neg (fun hcc => hne hcc.1)]
          exact hd
      · intro j hj hnot
        have hne : j ≠ ci := by
          intro hcc
          subst hcc
          exact hnot (hci_id ▸ insertId_self _ _)
        rw [setAt_getD, if_neg (fun hcc => hne hcc.1)]
        exact inv.unvis j hj (fun hm => hnot (insertId_subset hm))
      · intro id hid
        rcases mem_of_mem_insertId hid with h1 | h1
        · subst h1
          right
          refine ⟨(idsOfKeys keys).getD i "", ci, i, insertId_subset hsrc, hedge, hl,
            lastIdxOf_nodup hnd (by rw [hids]; exact hi), ?_⟩
          rw [setAt_getD, if_pos ⟨rfl, by rw [inv.dlen]; exact hci_keys⟩,
            setAt_getD, if_neg (fun hcc => hcine hcc.1.symm)]
        · rcases inv.parent id h1 with hz | ⟨src, i1, j1, hsrcv, hed, hlast1, hlast2, hdd⟩
          · exact Or.inl hz
          · right
            have hne1 : i1 ≠ ci := by
              intro hcc
              subst hcc
              exact hcnotv ((lastIdxOf_inj hlast1 hl) ▸ h1)
            have hne2 : j1 ≠ ci := by
              intro hcc
              subst hcc
              exact hcnotv ((lastIdxOf_inj hlast2 hl) ▸ hsrcv)
            refine ⟨src, i1, j1, insertId_subset hsrcv, hed, hlast1, hlast2, ?_⟩
            rw [setAt_getD, if_neg (fun hcc => hne1 hcc.1),
              setAt_getD, if_neg (fun hcc => hne2 hcc.1)]
            exact hdd

theorem bfsChildFold_inv (keys : List (String × String)) (es : List Edge)
    (hnd : (idsOfKeys keys).Nodup)
    {i : Nat} (hi : i < keys.length) :
    ∀ (children : List String) (st : List ℤ × List String × List Nat),
      (∀ c ∈ children, ∃ e ∈ validEdgesK (idsOfKeys keys) es,
        e.source = (idsOfKeys keys).getD i "" ∧ e.target = c) →
      BfsInvS keys es st.1 st.2.1 st.2.2 →
      (idsOfKeys keys).getD i "" ∈ st.2.1 →
      BfsInvS keys es
        (children.foldl (bfsChildStep (idsOfKeys keys) i) st).1
        (children.foldl (bfsChildStep (idsOfKeys keys) i) st).2.1
        (children.foldl (bfsChildStep (idsOfKeys keys) i) st).2.2 := by
  intro children
  induction children with
  | nil => intro st _ inv _; exact inv
  | cons c t ih =>
    intro st hed inv hsrc
    rcases bfsChildStep_inv keys es hnd hi inv hsrc
      (hed c (List.mem_cons_self c t)) with ⟨inv2, hmono⟩
    exact ih _ (fun c2 hc2 => hed c2 (List.mem_cons_of_mem _ hc2)) inv2 (hmono _ hsrc)

theorem bfsLoop_inv (keys : List (String × String)) (es : List Edge)
    (hnd : (idsOfKeys keys).Nodup) :
    ∀ (fuel : Nat) (d : List ℤ) (v : List String) (q : List Nat),
      BfsInvS keys es d v q →
      BfsInvS keys es (bfsLoop keys es fuel d v q).1 (bfsLoop keys es fuel d v q).2 [] := by
  intro fuel
  induction fuel with
  | zero =>
    intro d v q inv
    rw [bfsLoop]
    exact bfsInv_weaken inv
  | succ f ih =>
    intro d v q inv
    rcases q with _ | ⟨i, qrest⟩
    · rw [bfsLoop]
      exact bfsInv_weaken inv
    · rw [bfsLoop]
      rcases inv.qok i (List.mem_cons_self i qrest) with ⟨hi, hsrc⟩
      have hchild : ∀ c ∈ childrenOf (idsOfKeys keys) es ((idsOfKeys keys).getD i ""),
          ∃ e ∈ validEdgesK (idsOfKeys keys) es,
            e.source = (idsOfKeys keys).getD i "" ∧ e.target = c := by
        intro c hc
        rcases List.mem_map.mp hc with ⟨e, hef, htg⟩
        have hef2 := List.mem_filter.mp hef
        exact ⟨e, hef2.1, beq_iff_eq.mp hef2.2, htg⟩
      exact ih _ _ _
        (bfsChildFold_inv keys es hnd hi _ _ hchild (bfsInv_drop inv) hsrc)

theorem bfsRoots_genuine (keys : List (String × String)) (es : List Edge)
    (hex : ∃ k, k < keys.length ∧
      incomingCount (idsOfKeys keys) es ((idsOfKeys keys).getD k "") = 0) :
    ∀ i ∈ bfsRoots keys es, i < keys.length ∧
      incomingCount (idsOfKeys keys) es ((idsOfKeys keys).getD i "") = 0 := by
  rcases hex with ⟨k, hk, hinc⟩
  have hkmem : k ∈ (List.range keys.length).filter
      (fun i => incomingCount (idsOfKeys keys) es ((idsOfKeys keys).getD i "") == 0) := by
    refine List.mem_filter.mpr ⟨List.mem_range.mpr hk, ?_⟩
    exact beq_iff_eq.mpr hinc
  have hne : ((List.range keys.length).filter
      (fun i => incomingCount (idsOfKeys keys) es ((idsOfKeys keys).getD i "") == 0)).isEmpty
      = false := by
    rcases hl : (List.range keys.length).filter
        (fun i => incomingCount (idsOfKeys keys) es ((idsOfKeys keys).getD i "") == 0)
        with _ | ⟨x, t⟩
    · rw [hl] at hkmem; cases hkmem
    · rfl
  intro i hi
  unfold bfsRoots at hi
  dsimp only at hi
  rw [hne] at hi
  simp only [Bool.false_and, Bool.false_eq_true, if_false] at hi
  have hif := List.mem_filter.mp hi
  exact ⟨List.mem_range.mp hif.1, beq_iff_eq.mp hif.2⟩

theorem bfsRun_inv (keys : List (String × String)) (es : List Edge)
    (hnd : (idsOfKeys keys).Nodup)
    (hex : ∃ k, k < keys.length ∧
      incomingCount (idsOfKeys keys) es ((idsOfKeys keys).getD k "") = 0) :
    BfsInvS keys es (bfsRun keys es).1 (bfsRun keys es).2 [] := by
  unfold bfsRun
  exact bfsLoop_inv keys es hnd _ _ _ _
    (bfsInit_inv keys es hnd (bfsRoots_genuine keys es hex))

/- ──────────────────────────────────────────────────────────────────────
   Force phases only touch velocities (for C7/C9)
   ────────────────────────────────────────────────────────────────────── -/

theorem applyVelUpdates_get? :
    ∀ (ups : List (Nat × ℚ × ℚ)) (ns : List Node) (i : Nat) (n : Node),
      ns.get? i = some n →
      ∃ v w, (applyVelUpdates ns ups).get? i = some { n with vx := v, vy := w } := by
  intro ups
  induction ups with
  | nil =>
    intro ns i n h
    exact ⟨n.vx, n.vy, h⟩
  | cons u rest ih =>
    intro ns i n h
    rcases u with ⟨j, dx, dy⟩
    show ∃ v w,
      (applyVelUpdates (updAt j (fun m => { m with vx := m.vx + dx, vy := m.vy + dy }) ns)
        rest).get? i = some { n with vx := v, vy := w }
    by_cases hij : i = j
    · have hstep : (updAt j (fun m => { m with vx := m.vx + dx, vy := m.vy + dy }) ns).get? i
          = some { n with vx := n.vx + dx, vy := n.vy + dy } := by
        rw [updAt_get?, if_pos hij, h]
        rfl
      exact ih _ i { n with vx := n.vx + dx, vy := n.vy + dy } hstep
    · have hstep : (updAt j (fun m => { m with vx := m.vx + dx, vy := m.vy + dy }) ns).get? i
          = some n := by
        rw [updAt_get?, if_neg hij]
        exact h
      exact ih _ i _ hstep

theorem repulsionPhase_get? (M : MathLib) (alpha : ℚ) (ns : List Node) (act : List Nat)
    {i : Nat} {n : Node} (h : ns.get? i = some n) :
    ∃ v w, (repulsionPhase M alpha ns act).get? i = some { n with vx := v, vy := w } := by
  unfold repulsionPhase
  split
  · exact applyVelUpdates_get? _ _ _ _ h
  · exact applyVelUpdates_get? _ _ _ _ h

theorem springPhase_get? (M : MathLib) (alpha : ℚ) (ns : List Node) (act : List Nat)
    (aes : List Edge) {i : Nat} {n : Node} (h : ns.get? i = some n) :
    ∃ v w, (springPhase M alpha ns act aes).get? i = some { n with vx := v, vy := w } :=
  applyVelUpdates_get? _ _ _ _ h

theorem centerPhase_get? (alpha : ℚ) (ns : List Node) (act : List Nat)
    {i : Nat} {n : Node} (h : ns.get? i = some n) :
    ∃ v w, (centerPhase alpha ns act).get? i = some { n with vx := v, vy := w } :=
  applyVelUpdates_get? _ _ _ _ h

theorem radialPhase_get? (M : MathLib) (alpha : ℚ) (ns : List Node) (act : List Nat)
    {i : Nat} {n : Node} (h : ns.get? i = some n) :
    ∃ v w, (radialPhase M alpha ns act).get? i = some { n with vx := v, vy := w } :=
  applyVelUpdates_get? _ _ _ _ h

theorem collidePhase_get? (M : MathLib) (ns : List Node) (act : List Nat)
    {i : Nat} {n : Node} (h : ns.get? i = some n) :
    ∃ v w, (collidePhase M ns act).get? i = some { n with vx := v, vy := w } :=
  applyVelUpdates_get? _ _ _ _ h

theorem mapWithIdx_go_get? (f : Nat → Node → Node) :
    ∀ (ns : List Node) (k i : Nat),
      (mapWithIdx.go f k ns).get? i = (ns.get? i).map (f (k + i)) := by
  intro ns
  induction ns with
  | nil => intro k i; rfl
  | cons a t ih =>
    intro k i
    cases i with
    | zero => simp [mapWithIdx.go]
    | succ j =>
      show (mapWithIdx.go f (k + 1) t).get? j = (t.get? j).map (f (k + (j + 1)))
      rw [ih (k + 1) j]
      have harith : k + 1 + j = k + (j + 1) := by omega
      rw [harith]

theorem mapAtIdx_get? (ns : List Node) (act : List Nat) (f : Node → Node) (i : Nat) :
    (mapAtIdx ns act f).get? i =
      (ns.get? i).map (fun n => if act.contains i then f n else n) := by
  unfold mapAtIdx mapWithIdx
  rw [mapWithIdx_go_get?]
  simp only [Nat.zero_add]

/- ──────────────────────────────────────────────────────────────────────
   C4: depth monotonicity
   ────────────────────────────────────────────────────────────────────── -/

theorem getD_map_of_lt {α β : Type} (f : α → β) (l : List α) {i : Nat}
    (h : i < l.length) (d1 : β) (d2 : α) :
    (l.map f).getD i d1 = f (l.getD i d2) := by
  rw [getD_eq_get?_getD, List.get?_map, List.get?_eq_get h,
    getD_eq_get?_getD, List.get?_eq_get h]
  rfl

theorem zipWith_get?_patchAnn :
    ∀ (as : List Node) (bs : List Ann) (i : Nat),
      (List.zipWith patchAnn as bs).get? i =
        match as.get? i, bs.get? i with
        | some a, some b => some (patchAnn a b)
        | _, _ => none := by
  intro as
  induction as with
  | nil => intro bs i; cases bs <;> cases i <;> rfl
  | cons a t ih =>
    intro bs i
    cases bs with
    | nil =>
      cases i with
      | zero => rfl
      | succ j =>
        rcases hh : (a :: t).get? (j + 1) with _ | v <;> simp [hh]
    | cons b bt =>
      cases i with
      | zero => rfl
      | succ j => exact ih bt j

theorem getD_mem_of_lt {α : Type} (l : List α) (i : Nat) (d : α) (h : i < l.length) :
    l.getD i d ∈ l := by
  rw [getD_eq_get?_getD, List.get?_eq_get h]
  exact List.get_mem l i h

theorem length_le_one_mem_eq {α : Type} {l : List α} {a b : α}
    (ha : a ∈ l) (hb : b ∈ l) (h : l.length ≤ 1) : a = b := by
  rcases l with _ | ⟨x, t⟩
  · cases ha
  · rcases t with _ | ⟨y, t2⟩
    · simp only [List.mem_singleton] at ha hb
      rw [ha, hb]
    · simp at h

theorem idsOfKeys_map_nodeKey (ns : List Node) :
    idsOfKeys (ns.map nodeKey) = nodeIdsOf ns := by
  unfold idsOfKeys nodeIdsOf nodeKey
  rw [List.map_map]
  rfl

theorem calcCore_get? (keys : List (String × String)) (es1 : List Edge) {k : Nat}
    (h : k < keys.length) :
    (calcCore keys es1).get? k = some
      { depth := (fallbackDepths (bfsRun keys es1).1).getD k (-1),
        vIndex := (dfsRun keys es1 (fallbackDepths (bfsRun keys es1).1)).vIdx.getD k 0,
        vCount := jsOrZ ((lvlGet (depthCountsOf (fallbackDepths (bfsRun keys es1).1)
            (dfsRun keys es1 (fallbackDepths (bfsRun keys es1).1)).vIdx keys.length)
            ((fallbackDepths (bfsRun keys es1).1).getD k (-1))).getD 0) 1,
        maxDepth := maxDepthOf (fallbackDepths (bfsRun keys es1).1),
        visited := (dfsRun keys es1 (fallbackDepths (bfsRun keys es1).1)).flags.getD k false } := by
  unfold calcCore
  rw [List.get?_map, List.get?_range h]
  rfl

theorem calc_elem_spec (ns : List Node) (es1 : List Edge) {a : Node}
    (ha : a ∈ calcTreeDepths ns es1) :
    ∃ k, k < ns.length ∧ (nodeIdsOf ns).getD k "" = a.id ∧
      a.depth = (fallbackDepths (bfsRun (ns.map nodeKey) es1).1).getD k (-1) := by
  unfold calcTreeDepths at ha
  by_cases hemp : ns.isEmpty = true
  · rw [if_pos hemp] at ha
    rcases ns with _ | _
    · cases ha
    · cases hemp
  · rw [if_neg hemp] at ha
    rcases List.mem_iff_get?.mp ha with ⟨k, hk⟩
    rw [zipWith_get?_patchAnn] at hk
    rcases hga : ns.get? k with _ | ⟨nk⟩
    · rw [hga] at hk
      cases hk
    · rcases hgb : (calcCore (ns.map nodeKey) es1).get? k with _ | ⟨ak⟩
      · rw [hga, hgb] at hk
        cases hk
      · rw [hga, hgb] at hk
        simp only [Option.some_inj] at hk
        rcases List.get?_eq_some.mp hga with ⟨hklen, hget⟩
        have hkk : k < (ns.map nodeKey).length := by rw [List.length_map]; exact hklen
        rw [calcCore_get? (ns.map nodeKey) es1 hkk, Option.some_inj] at hgb
        refine ⟨k, hklen, ?_, ?_⟩
        · rw [← hk]
          show (ns.map (fun n : Node => n.id)).getD k "" = (patchAnn nk ak).id
          rw [getD_map_of_lt (fun n : Node => n.id) ns hklen "" default,
            getD_eq_get?_getD, List.get?_eq_get hklen, hget]
          rfl
        · rw [← hk, ← hgb]
          rfl

/-- C4 (counterexample): the diamond `r→a, r→b, a→b` is a fixed point of the
repair pass, and after `_calcTreeDepths` the edge `a→b` has
`depth(b) = 1 ≠ depth(a) + 1 = 2` — repaired graphs need not satisfy depth
monotonicity because the repair never removes multi-parent edges. -/
theorem c4_counterexample :
    (loadGraph c4DiamondNodes c4DiamondEdges).edges = c4DiamondEdges ∧
    ¬ (∀ e ∈ (loadGraph c4DiamondNodes c4DiamondEdges).edges,
        ∀ a ∈ calcTreeDepths c4DiamondNodes (loadGraph c4DiamondNodes c4DiamondEdges).edges,
          ∀ b ∈ calcTreeDepths c4DiamondNodes (loadGraph c4DiamondNodes c4DiamondEdges).edges,
            a.id = e.source → b.id = e.target → b.depth = a.depth + 1) := by
  decide

/-- C4 (amended): for a repaired graph whose edge set is a forest reached by
the BFS — every node has at most one incoming edge, at least one node has
none, and the BFS visits every node id — every edge `(source,target)`
satisfies `depth(target) = depth(source) + 1` after `_calcTreeDepths` (node
ids assumed pairwise distinct).  In general the repair pass does not
establish these side conditions: multi-parent and cyclic edge sets survive
it, and the equality can fail. -/
theorem c4_depthMonotone_amended (ns : List Node) (es0 : List Edge)
    (hnd : (nodeIdsOf ns).Nodup)
    (hone : ∀ id ∈ nodeIdsOf ns,
      incomingCount (nodeIdsOf ns) (loadGraph ns es0).edges id ≤ 1)
    (hasroot : ∃ id ∈ nodeIdsOf ns,
      incomingCount (nodeIdsOf ns) (loadGraph ns es0).edges id = 0)
    (hall : ∀ id ∈ nodeIdsOf ns,
      id ∈ (bfsRun (ns.map nodeKey) (loadGraph ns es0).edges).2) :
    ∀ e ∈ (loadGraph ns es0).edges,
      ∀ a ∈ calcTreeDepths ns (loadGraph ns es0).edges,
        ∀ b ∈ calcTreeDepths ns (loadGraph ns es0).edges,
          a.id = e.source → b.id = e.target → b.depth = a.depth + 1 := by
  have hbridge : idsOfKeys (ns.map nodeKey) = nodeIdsOf ns := idsOfKeys_map_nodeKey ns
  have hidslen : (nodeIdsOf ns).length = ns.length := List.length_map _ _
  have hkeyslen : (ns.map nodeKey).length = ns.length := List.length_map _ _
  have hnd2 : (idsOfKeys (ns.map nodeKey)).Nodup := by rw [hbridge]; exact hnd
  have hex : ∃ k, k < (ns.map nodeKey).length ∧
      incomingCount (idsOfKeys (ns.map nodeKey)) (loadGraph ns es0).edges
        ((idsOfKeys (ns.map nodeKey)).getD k "") = 0 := by
    rcases hasroot with ⟨id, hidmem, hz⟩
    rcases List.mem_iff_get?.mp hidmem with ⟨k, hk⟩
    rcases List.get?_eq_some.mp hk with ⟨hklen, hget⟩
    refine ⟨k, by rw [hkeyslen, ← hidslen]; exact hklen, ?_⟩
    rw [hbridge]
    have : (nodeIdsOf ns).getD k "" = id := by
      rw [getD_eq_get?_getD, hk]
      rfl
    rw [this]
    exact hz
  have inv := bfsRun_inv (ns.map nodeKey) (loadGraph ns es0).edges hnd2 hex
  intro e he a ha b hb hsa hsb
  have hends := ensure_endpoint_ids ns es0 e he
  have hvalidmem : e ∈ validEdgesK (nodeIdsOf ns) (loadGraph ns es0).edges := by
    refine List.mem_filter.mpr ⟨he, ?_⟩
    simp only [Bool.and_eq_true]
    exact ⟨(contains_iff_mem _ _).mpr hends.1, (contains_iff_mem _ _).mpr hends.2⟩
  have htv : e.target ∈ (bfsRun (ns.map nodeKey) (loadGraph ns es0).edges).2 :=
    hall e.target hends.2
  rcases inv.parent e.target htv with hz | ⟨src, i, j, hsrcv, ⟨e2, he2, hs2, ht2⟩,
      hlast_t, hlast_s, hdd⟩
  · -- zero incoming contradicts the existence of edge e into the target
    exfalso
    rw [hbridge] at hz
    have hmemf : e ∈ (validEdgesK (nodeIdsOf ns) (loadGraph ns es0).edges).filter
        (fun x => x.target == e.target) :=
      List.mem_filter.mpr ⟨hvalidmem, beq_iff_eq.mpr rfl⟩
    have hpos : 0 < ((validEdgesK (nodeIdsOf ns) (loadGraph ns es0).edges).filter
        (fun x => x.target == e.target)).length :=
      List.length_pos.mpr (List.ne_nil_of_mem hmemf)
    unfold incomingCount at hz
    omega
  · -- the unique incoming edge determines the parent
    have he2' : e2 ∈ validEdgesK (nodeIdsOf ns) (loadGraph ns es0).edges := by
      rw [← hbridge]; exact he2
    have hle1 : ((validEdgesK (nodeIdsOf ns) (loadGraph ns es0).edges).filter
        (fun x => x.target == e.target)).length ≤ 1 := hone e.target hends.2
    have hee2 : e = e2 := by
      refine length_le_one_mem_eq ?_ ?_ hle1
      · exact List.mem_filter.mpr ⟨hvalidmem, beq_iff_eq.mpr rfl⟩
      · exact List.mem_filter.mpr ⟨he2', beq_iff_eq.mpr ht2⟩
    rcases calc_elem_spec ns (loadGraph ns es0).edges ha with ⟨ka, hka, hkaid, hkadepth⟩
    rcases calc_elem_spec ns (loadGraph ns es0).edges hb with ⟨kb, hkb, hkbid, hkbdepth⟩
    -- identify positional indices with the invariant's lastIdxOf indices
    have hlast_a : lastIdxOf (nodeIdsOf ns) a.id = some ka := by
      rw [← hkaid]
      exact lastIdxOf_nodup hnd (by rw [hidslen]; exact hka)
    have hlast_b : lastIdxOf (nodeIdsOf ns) b.id = some kb := by
      rw [← hkbid]
      exact lastIdxOf_nodup hnd (by rw [hidslen]; exact hkb)
    have hsrc_eq : src = a.id := by
      rw [hsa, hee2]
      exact hs2.symm
    have hkb_i : kb = i := by
      have := hlast_b
      rw [hsb, ← hbridge] at this
      rw [hlast_t, Option.some_inj] at this
      exact this.symm
    have hka_j : ka = j := by
      have := hlast_a
      rw [← hsrc_eq, ← hbridge] at this
      rw [hlast_s, Option.some_inj] at this
      exact this.symm
    -- visited nodes keep their BFS depth through the fallback pass
    have hdlen : (bfsRun (ns.map nodeKey) (loadGraph ns es0).edges).1.length = ns.length := by
      rw [inv.dlen, hkeyslen]
    have hdi : 0 ≤ (bfsRun (ns.map nodeKey) (loadGraph ns es0).edges).1.getD i (-1) := by
      rcases inv.vdepth e.target htv with ⟨i2, hlast2, hd2⟩
      rw [hlast_t, Option.some_inj] at hlast2
      exact hlast2 ▸ hd2
    have hdj : 0 ≤ (bfsRun (ns.map nodeKey) (loadGraph ns es0).edges).1.getD j (-1) := by
      rcases inv.vdepth src hsrcv with ⟨j2, hlast2, hd2⟩
      rw [hlast_s, Option.some_inj] at hlast2
      exact hlast2 ▸ hd2
    have hfb : ∀ k2 : Nat, k2 < ns.length →
        0 ≤ (bfsRun (ns.map nodeKey) (loadGraph ns es0).edges).1.getD k2 (-1) →
        (fallbackDepths (bfsRun (ns.map nodeKey) (loadGraph ns es0).edges).1).getD k2 (-1) =
          (bfsRun (ns.map nodeKey) (loadGraph ns es0).edges).1.getD k2 (-1) := by
      intro k2 hk2 hpos
      unfold fallbackDepths
      rw [getD_map_of_lt _ _ (by rw [hdlen]; exact hk2) (-1) (-1)]
      rw [if_neg (by omega)]
    rw [hkbdepth, hkadepth, hkb_i, hka_j,
      hfb i (by rw [← hkb_i]; exact hkb) hdi,
      hfb j (by rw [← hka_j]; exact hka) hdj]
    exact hdd

/-- Witness for `c4_depthMonotone_amended`: in the spec's tree scenario the
edge `a→c` gives `depth(c) = depth(a) + 1`. -/
theorem c4_depthMonotone_amended_witness :
    ((nodeIdsOf c4TreeNodes).Nodup ∧
      (∀ id ∈ nodeIdsOf c4TreeNodes,
        incomingCount (nodeIdsOf c4TreeNodes) (loadGraph c4TreeNodes c4TreeEdges).edges id ≤ 1) ∧
      (∃ id ∈ nodeIdsOf c4TreeNodes,
        incomingCount (nodeIdsOf c4TreeNodes) (loadGraph c4TreeNodes c4TreeEdges).edges id = 0) ∧
      (∀ id ∈ nodeIdsOf c4TreeNodes,
        id ∈ (bfsRun (c4TreeNodes.map nodeKey) (loadGraph c4TreeNodes c4TreeEdges).edges).2)) ∧
    ((calcTreeDepths c4TreeNodes (loadGraph c4TreeNodes c4TreeEdges).edges).getD 3
        default).depth =
      ((calcTreeDepths c4TreeNodes (loadGraph c4TreeNodes c4TreeEdges).edges).getD 1
        default).depth + 1 :=
  ⟨⟨by decide, by decide, by decide, by decide⟩,
   c4_depthMonotone_amended c4TreeNodes c4TreeEdges (by decide) (by decide) (by decide)
     (by decide)
     { id := "e3", source := "a", target := "c" } (by decide)
     ((calcTreeDepths c4TreeNodes (loadGraph c4TreeNodes c4TreeEdges).edges).getD 1 default)
     (getD_mem_of_lt _ 1 default (by decide))
     ((calcTreeDepths c4TreeNodes (loadGraph c4TreeNodes c4TreeEdges).edges).getD 3 default)
     (getD_mem_of_lt _ 3 default (by decide)) (by decide) (by decide)⟩

/- ──────────────────────────────────────────────────────────────────────
   C5: idempotence of the depth/order calculator
   ────────────────────────────────────────────────────────────────────── -/

theorem calcCore_length (keys : List (String × String)) (es : List Edge) :
    (calcCore keys es).length = keys.length := by
  unfold calcCore
  rw [List.length_map, List.length_range]

theorem map_nodeKey_zipWith : ∀ (ns : List Node) (l : List Ann), l.length = ns.length →
    (List.zipWith patchAnn ns l).map nodeKey = ns.map nodeKey := by
  intro ns
  induction ns with
  | nil => intro l _; simp
  | cons n t ih =>
    intro l hl
    rcases l with _ | ⟨a, lt⟩
    · simp at hl
    · simp only [List.zipWith_cons_cons, List.map_cons, List.cons.injEq]
      exact ⟨rfl, ih lt (by simpa using hl)⟩

theorem zipWith_patchAnn_twice : ∀ (ns : List Node) (l : List Ann),
    List.zipWith patchAnn (List.zipWith patchAnn ns l) l = List.zipWith patchAnn ns l := by
  intro ns
  induction ns with
  | nil => intro l; simp
  | cons n t ih =>
    intro l
    rcases l with _ | ⟨a, lt⟩
    · simp
    · simp only [List.zipWith_cons_cons, List.cons.injEq]
      exact ⟨rfl, ih lt⟩

/-- C5 (confirmed): `_calcTreeDepths` is idempotent — running it twice on a
structurally unchanged node/edge list produces exactly the same `_depth`,
`_vIndex`, `_vCount`, `_maxDepth` (and `_visited`) annotations as running it
once, because every annotation field is fully reset and the computation
reads only node ids, names, array order and the edges. -/
theorem c5_calcIdempotent (ns : List Node) (es : List Edge) :
    calcTreeDepths (calcTreeDepths ns es) es = calcTreeDepths ns es := by
  by_cases h : ns.isEmpty = true
  · have hnil : ns = [] := by
      rcases ns with _ | ⟨a, t⟩
      · rfl
      · cases h
    subst hnil
    rfl
  · have hinner : calcTreeDepths ns es =
        List.zipWith patchAnn ns (calcCore (ns.map nodeKey) es) := by
      unfold calcTreeDepths
      rw [if_neg h]
    have hlen2 : (calcCore (ns.map nodeKey) es).length = ns.length := by
      rw [calcCore_length, List.length_map]
    have hziplen : (List.zipWith patchAnn ns (calcCore (ns.map nodeKey) es)).length
        = ns.length := by
      rw [List.length_zipWith, hlen2, min_self]
    have hne2 : ¬ (List.zipWith patchAnn ns (calcCore (ns.map nodeKey) es)).isEmpty = true := by
      intro hcon
      have hnil : List.zipWith patchAnn ns (calcCore (ns.map nodeKey) es) = [] := by
        rcases hzip : List.zipWith patchAnn ns (calcCore (ns.map nodeKey) es) with _ | ⟨a, t⟩
        · rfl
        · rw [hzip] at hcon
          cases hcon
      rw [hnil] at hziplen
      have : ns = [] := List.length_eq_zero.mp hziplen.symm
      rw [this] at h
      exact h rfl
    rw [hinner]
    unfold calcTreeDepths
    rw [if_neg hne2, map_nodeKey_zipWith ns _ hlen2]
    exact zipWith_patchAnn_twice ns _

/-- Witness for `c3_dedup_amended`: the spec scenario with a duplicated
`r→a` edge; one copy survives and it is the first occurrence `e1`. -/
theorem c3_dedup_amended_witness :
    ((nodeIdsOf c3WitnessNodes).Nodup ∧ ∀ n ∈ c3WitnessNodes, '→' ∉ n.id.data) ∧
    ((loadGraph c3WitnessNodes c3WitnessEdges).edges.filter
        (fun e => e.source == "r" && e.target == "a")).length ≤ 1 ∧
    ({ id := "e1", source := "r", target := "a" } : Edge) ∈
      (loadGraph c3WitnessNodes c3WitnessEdges).edges :=
  ⟨⟨by decide, by decide⟩,
   (c3_dedup_amended c3WitnessNodes c3WitnessEdges (by decide) (by decide)).1 "r" "a",
   (c3_dedup_amended c3WitnessNodes c3WitnessEdges (by decide) (by decide)).2 "r" "a"
     { id := "e1", source := "r", target := "a" } (by decide)⟩

/- ──────────────────────────────────────────────────────────────────────
   C7: pin dominance
   ────────────────────────────────────────────────────────────────────── -/

/-- C7 (counterexample): the node `c` is pinned at `(5,5)` but hidden under
the collapsed node `p`; a tick leaves it at `(0,0)` with nonzero velocity —
hidden nodes are excluded from `activeNodes` and never snapped. -/
theorem c7_counterexample :
    (nodeAt c7Nodes 1).fx = some 5 ∧ (nodeAt c7Nodes 1).fy = some 5 ∧
    ¬ ((nodeAt (applyForces mathZero Mode.free 1 c7Nodes []) 1).x = some 5 ∧
       (nodeAt (applyForces mathZero Mode.free 1 c7Nodes []) 1).y = some 5 ∧
       (nodeAt (applyForces mathZero Mode.free 1 c7Nodes []) 1).vx = 0 ∧
       (nodeAt (applyForces mathZero Mode.free 1 c7Nodes []) 1).vy = 0) := by
  decide

/-- C7 (amended): for every ACTIVE node (not hidden under a collapsed
ancestor) whose `fx` and `fy` are non-null at the start of a tick, after
`_applyForces` the node satisfies `x = fx`, `y = fy` and `vx = vy = 0`, in
every layout mode, for every interpretation of the `Math` functions and
regardless of all force contributions.  Hidden pinned nodes are skipped
entirely. -/
theorem c7_pinDominance_amended (M : MathLib) (mode : Mode) (alpha : ℚ)
    (ns : List Node) (es : List Edge) (i : Nat) (a b : ℚ)
    (hact : i ∈ activeIdx ns)
    (hfx : (nodeAt ns i).fx = some a) (hfy : (nodeAt ns i).fy = some b) :
    (nodeAt (applyForces M mode alpha ns es) i).x = some a ∧
    (nodeAt (applyForces M mode alpha ns es) i).y = some b ∧
    (nodeAt (applyForces M mode alpha ns es) i).vx = 0 ∧
    (nodeAt (applyForces M mode alpha ns es) i).vy = 0 := by
  have hlt : i < ns.length := List.mem_range.mp (List.mem_filter.mp hact).1
  have hget : ns.get? i = some (nodeAt ns i) := by
    rw [List.get?_eq_get hlt]
    unfold nodeAt
    rw [getD_eq_get?_getD, List.get?_eq_get hlt]
    rfl
  have hemp : (activeIdx ns).isEmpty = false := by
    rcases hactl : activeIdx ns with _ | ⟨x, t⟩
    · rw [hactl] at hact
      cases hact
    · rfl
  have hcontains : (activeIdx ns).contains i = true := (contains_iff_mem _ _).mpr hact
  cases mode with
  | free =>
    obtain ⟨v1, w1, h1⟩ := repulsionPhase_get? M alpha ns (activeIdx ns) hget
    obtain ⟨v2, w2, h2⟩ := springPhase_get? M alpha _ (activeIdx ns)
      (activeEdges ns (activeIdx ns) es) h1
    obtain ⟨v3, w3, h3⟩ := centerPhase_get? alpha _ (activeIdx ns) h2
    obtain ⟨v5, w5, h5⟩ := collidePhase_get? M _ (activeIdx ns) h3
    have happ : applyForces M Mode.free alpha ns es =
        mapAtIdx
          (collidePhase M
            (centerPhase alpha
              (springPhase M alpha (repulsionPhase M alpha ns (activeIdx ns))
                (activeIdx ns) (activeEdges ns (activeIdx ns) es))
              (activeIdx ns))
            (activeIdx ns))
          (activeIdx ns) integrateNode := by
      unfold applyForces
      dsimp only
      rw [hemp]
      simp only [reduceIte]
      rw [if_neg (by decide : ¬ (false = true)),
        if_neg (by decide : ¬ (Mode.free = Mode.strict)),
        if_neg (by decide : ¬ (Mode.free = Mode.radial))]
    have hout : (applyForces M Mode.free alpha ns es).get? i =
        some (integrateNode { nodeAt ns i with vx := v5, vy := w5 }) := by
      rw [happ, mapAtIdx_get?, h5]
      simp only [Option.map_some', hcontains, if_true]
    have hnodeAt : nodeAt (applyForces M Mode.free alpha ns es) i =
        integrateNode { nodeAt ns i with vx := v5, vy := w5 } := by
      unfold nodeAt
      rw [getD_eq_get?_getD, hout]
      rfl
    rw [hnodeAt]
    unfold integrateNode
    rw [if_pos (by show (nodeAt ns i).fx.isSome = true; rw [hfx]; rfl)]
    exact ⟨hfx, hfy, rfl, rfl⟩
  | strict =>
    obtain ⟨v1, w1, h1⟩ := repulsionPhase_get? M alpha ns (activeIdx ns) hget
    obtain ⟨v2, w2, h2⟩ := springPhase_get? M alpha _ (activeIdx ns)
      (activeEdges ns (activeIdx ns) es) h1
    have happ : applyForces M Mode.strict alpha ns es =
        mapAtIdx
          (springPhase M alpha (repulsionPhase M alpha ns (activeIdx ns))
            (activeIdx ns) (activeEdges ns (activeIdx ns) es))
          (activeIdx ns) strictSnap := by
      unfold applyForces
      dsimp only
      rw [hemp]
      simp only [reduceIte]
      rw [if_neg (by decide : ¬ (false = true)),
        if_neg (by decide : ¬ (Mode.strict = Mode.free))]
    have hout : (applyForces M Mode.strict alpha ns es).get? i =
        some (strictSnap { nodeAt ns i with vx := v2, vy := w2 }) := by
      rw [happ, mapAtIdx_get?, h2]
      simp only [Option.map_some', hcontains, if_true]
    have hnodeAt : nodeAt (applyForces M Mode.strict alpha ns es) i =
        strictSnap { nodeAt ns i with vx := v2, vy := w2 } := by
      unfold nodeAt
      rw [getD_eq_get?_getD, hout]
      rfl
    rw [hnodeAt]
    unfold strictSnap
    rw [if_pos (by show (nodeAt ns i).fx.isSome = true; rw [hfx]; rfl)]
    exact ⟨hfx, hfy, rfl, rfl⟩
  | radial =>
    obtain ⟨v1, w1, h1⟩ := repulsionPhase_get? M alpha ns (activeIdx ns) hget
    obtain ⟨v2, w2, h2⟩ := springPhase_get? M alpha _ (activeIdx ns)
      (activeEdges ns (activeIdx ns) es) h1
    obtain ⟨v4, w4, h4⟩ := radialPhase_get? M alpha _ (activeIdx ns) h2
    obtain ⟨v5, w5, h5⟩ := collidePhase_get? M _ (activeIdx ns) h4
    have happ : applyForces M Mode.radial alpha ns es =
        mapAtIdx
          (collidePhase M
            (radialPhase M alpha
              (springPhase M alpha (repulsionPhase M alpha ns (activeIdx ns))
                (activeIdx ns) (activeEdges ns (activeIdx ns) es))
              (activeIdx ns))
            (activeIdx ns))
          (activeIdx ns) integrateNode := by
      unfold applyForces
      dsimp only
      rw [hemp]
      simp only [reduceIte]
      rw [if_neg (by decide : ¬ (false = true)),
        if_neg (by decide : ¬ (Mode.radial = Mode.free)),
        if_neg (by decide : ¬ (Mode.radial = Mode.strict))]
    have hout : (applyForces M Mode.radial alpha ns es).get? i =
        some (integrateNode { nodeAt ns i with vx := v5, vy := w5 }) := by
      rw [happ, mapAtIdx_get?, h5]
      simp only [Option.map_some', hcontains, if_true]
    have hnodeAt : nodeAt (applyForces M Mode.radial alpha ns es) i =
        integrateNode { nodeAt ns i with vx := v5, vy := w5 } := by
      unfold nodeAt
      rw [getD_eq_get?_getD, hout]
      rfl
    rw [hnodeAt]
    unfold integrateNode
    rw [if_pos (by show (nodeAt ns i).fx.isSome = true; rw [hfx]; rfl)]
    exact ⟨hfx, hfy, rfl, rfl⟩

/-- Witness for `c7_pinDominance_amended`: a single active node pinned at
`(7,8)` snaps there with zero velocity. -/
theorem c7_pinDominance_amended_witness :
    (0 ∈ activeIdx c7WitnessNodes ∧ (nodeAt c7WitnessNodes 0).fx = some 7 ∧
      (nodeAt c7WitnessNodes 0).fy = some 8) ∧
    (nodeAt (applyForces mathZero Mode.free 1 c7WitnessNodes []) 0).x = some 7 ∧
    (nodeAt (applyForces mathZero Mode.free 1 c7WitnessNodes []) 0).y = some 8 ∧
    (nodeAt (applyForces mathZero Mode.free 1 c7WitnessNodes []) 0).vx = 0 ∧
    (nodeAt (applyForces mathZero Mode.free 1 c7WitnessNodes []) 0).vy = 0 :=
  ⟨⟨by decide, by decide, by decide⟩,
   c7_pinDominance_amended mathZero Mode.free 1 c7WitnessNodes [] 0 7 8
     (by decide) (by decide) (by decide)⟩

/- ──────────────────────────────────────────────────────────────────────
   C9: empty graph
   ────────────────────────────────────────────────────────────────────── -/

/-- C9 (counterexample): `start()` has no emptiness guard — starting the
engine on a zero-node graph still enters the running state. -/
theorem c9_counterexample : (start mathZero c9EmptyState).running = true := by
  simp [start, tickStep, c9EmptyState, cfg]
  norm_num

/-- C9 (amended): with zero nodes every layout operation is a no-op —
`_applyForces` returns immediately (no active nodes), `_calcTreeDepths`
returns without annotating, `applyStrictLayout` returns without placing —
but the simulation CAN still start: `start()` sets `running` without
checking for emptiness (see the counterexample). -/
theorem c9_emptyNoop_amended (M : MathLib) (mode : Mode) (alpha : ℚ)
    (es : List Edge) (onlyUnpositioned : Bool) :
    applyForces M mode alpha [] es = [] ∧
    calcTreeDepths [] es = [] ∧
    applyStrictLayout onlyUnpositioned [] es = [] :=
  ⟨rfl, rfl, rfl⟩

/- ──────────────────────────────────────────────────────────────────────
   C6: energy decay and guaranteed idling
   ────────────────────────────────────────────────────────────────────── -/

theorem runTicks_succ (M : MathLib) (n : Nat) (s : SimState) :
    runTicks M (n+1) s = if s.running then runTicks M n (tickStep M s) else s := rfl

theorem runTicks_of_not_running (M : MathLib) (n : Nat) (s : SimState)
    (h : s.running = false) : runTicks M n s = s := by
  cases n with
  | zero => rfl
  | succ n =>
    rw [runTicks_succ, if_neg]
    simp [h]

theorem tickStep_stop (M : MathLib) (s : SimState) (h : s.alpha < cfg.alphaMin) :
    tickStep M s = { s with running := false, finalSignalled := true } := by
  unfold tickStep
  rw [if_pos (Or.inr h)]

theorem tickStep_decay (M : MathLib) (s : SimState) (hrun : s.running = true)
    (hge : ¬ s.alpha < cfg.alphaMin) :
    tickStep M s = { s with nodes := applyForces M s.mode s.alpha s.nodes s.edges,
                            alpha := s.alpha * (1 - cfg.alphaDecay) } := by
  unfold tickStep
  rw [if_neg]
  intro hc
  cases hc with
  | inl h1 => exact h1 hrun
  | inr h2 => exact hge h2

theorem runTicks_stops (M : MathLib) :
    ∀ (n : Nat) (s : SimState), s.running = true →
      s.alpha * (491/500 : ℚ)^n < 1/200 →
      (runTicks M (n+1) s).running = false ∧
      (runTicks M (n+1) s).finalSignalled = true := by
  intro n
  induction n with
  | zero =>
    intro s hrun hlt
    have hlt2 : s.alpha < cfg.alphaMin := by
      simp only [pow_zero, mul_one] at hlt
      have hmin : cfg.alphaMin = (1/200 : ℚ) := by norm_num [cfg]
      rw [hmin]
      exact hlt
    rw [runTicks_succ, if_pos hrun]
    rw [show runTicks M 0 (tickStep M s) = tickStep M s from rfl]
    rw [tickStep_stop M s hlt2]
    exact ⟨rfl, rfl⟩
  | succ n ih =>
    intro s hrun hlt
    rw [runTicks_succ, if_pos hrun]
    by_cases hmin : s.alpha < cfg.alphaMin
    · rw [tickStep_stop M s hmin]
      rw [runTicks_of_not_running M (n+1) _ rfl]
      exact ⟨rfl, rfl⟩
    · rw [tickStep_decay M s hrun hmin]
      have hdec : (1 - cfg.alphaDecay : ℚ) = 491/500 := by norm_num [cfg]
      refine ih _ hrun ?_
      show s.alpha * (1 - cfg.alphaDecay) * (491/500 : ℚ)^n < 1/200
      rw [hdec]
      calc s.alpha * (491/500 : ℚ) * (491/500 : ℚ)^n
          = s.alpha * (491/500 : ℚ)^(n+1) := by ring
        _ < 1/200 := hlt

/-- C6: while the energy is at or above `alphaMin`, each tick multiplies it
by `1 - alphaDecay` — a strict decrease — and from any starting energy in
`(0, 1]` the engine is idle, with the final callback fired, after at most
293 ticks, a bound independent of the graph. -/
theorem c6_energyDecay (M : MathLib) (s : SimState)
    (hrun : s.running = true) (hpos : 0 < s.alpha) (hle : s.alpha ≤ 1) :
    (cfg.alphaMin ≤ s.alpha →
      (tickStep M s).alpha = s.alpha * (1 - cfg.alphaDecay) ∧
      (tickStep M s).alpha < s.alpha) ∧
    (runTicks M 293 s).running = false ∧
    (runTicks M 293 s).finalSignalled = true := by
  refine ⟨?_, ?_⟩
  · intro hmin
    have hne : ¬ s.alpha < cfg.alphaMin := not_lt.mpr hmin
    rw [tickStep_decay M s hrun hne]
    refine ⟨rfl, ?_⟩
    have h1 : (1 - cfg.alphaDecay : ℚ) < 1 := by norm_num [cfg]
    calc s.alpha * (1 - cfg.alphaDecay) < s.alpha * 1 :=
          mul_lt_mul_of_pos_left h1 hpos
      _ = s.alpha := mul_one _
  · have hp : (0:ℚ) < (491/500 : ℚ)^292 := by positivity
    have hb : ((491:ℚ)/500)^292 < 1/200 := by norm_num
    have h292 : s.alpha * (491/500 : ℚ)^292 < 1/200 :=
      calc s.alpha * (491/500 : ℚ)^292 ≤ 1 * (491/500 : ℚ)^292 :=
            mul_le_mul_of_nonneg_right hle (le_of_lt hp)
        _ = (491/500 : ℚ)^292 := one_mul _
        _ < 1/200 := hb
    exact runTicks_stops M 292 s hrun h292

/-- C6 witness: the theorem applied to a running engine at full energy. -/
theorem c6_energyDecay_witness :
    c6State.running = true ∧ (0:ℚ) < c6State.alpha ∧ c6State.alpha ≤ 1 ∧
    ((cfg.alphaMin ≤ c6State.alpha →
      (tickStep mathZero c6State).alpha = c6State.alpha * (1 - cfg.alphaDecay) ∧
      (tickStep mathZero c6State).alpha < c6State.alpha) ∧
    (runTicks mathZero 293 c6State).running = false ∧
    (runTicks mathZero 293 c6State).finalSignalled = true) :=
  ⟨rfl, by norm_num [c6State], by norm_num [c6State],
   c6_energyDecay mathZero c6State rfl (by norm_num [c6State]) (by norm_num [c6State])⟩

/- ──────────────────────────────────────────────────────────────────────
   C8: strict layout partial update
   ────────────────────────────────────────────────────────────────────── -/

theorem calcTreeDepths_get?_ex (ns : List Node) (es : List Edge) {i : Nat}
    (h : i < ns.length) :
    ∃ a, (calcTreeDepths ns es).get? i = some (patchAnn (nodeAt ns i) a) := by
  have hne : ns.isEmpty = false := by
    cases ns with
    | nil => simp at h
    | cons x t => rfl
  unfold calcTreeDepths
  rw [if_neg (by rw [hne]; exact Bool.false_ne_true)]
  obtain ⟨v, hv⟩ : ∃ v, ns.get? i = some v := by
    rw [List.get?_eq_get h]
    exact ⟨_, rfl⟩
  have hvn : nodeAt ns i = v := by
    unfold nodeAt
    rw [getD_eq_get?_getD, hv]
    rfl
  have hlen : i < (calcCore (ns.map nodeKey) es).length := by
    rw [calcCore_length, List.length_map]
    exact h
  obtain ⟨b, hb⟩ : ∃ b, (calcCore (ns.map nodeKey) es).get? i = some b := by
    rw [List.get?_eq_get hlen]
    exact ⟨_, rfl⟩
  refine ⟨b, ?_⟩
  rw [zipWith_get?_patchAnn, hv, hb, hvn]

theorem hasPos_patchAnn (n : Node) (a : Ann) : hasPos (patchAnn n a) = hasPos n := rfl

/-- C8: `applyStrictLayout(true)` leaves the `x`/`y` of every node that
already has a non-null, non-origin position bit-identical — only
unpositioned nodes are (re)placed. -/
theorem c8_strictPartial (ns : List Node) (es : List Edge) (i : Nat)
    (hi : i < ns.length) (hpos : hasPos (nodeAt ns i) = true) :
    ((applyStrictLayout true ns es).get? i).map (fun m => (m.x, m.y)) =
      some ((nodeAt ns i).x, (nodeAt ns i).y) := by
  have hne : ns.isEmpty = false := by
    cases ns with
    | nil => simp at hi
    | cons x t => rfl
  unfold applyStrictLayout
  rw [if_neg (by rw [hne]; exact Bool.false_ne_true)]
  obtain ⟨a, ha⟩ := calcTreeDepths_get?_ex ns es hi
  rw [List.get?_map, ha]
  have hpm : hasPos (patchAnn (nodeAt ns i) a) = true := by
    rw [hasPos_patchAnn]
    exact hpos
  simp only [Option.map_some']
  rw [Bool.true_and, if_pos hpm]
  rfl

/-- C8 witness: the already-positioned node of `c8Nodes` keeps `(11, 22)`
across `applyStrictLayout(true)`. -/
theorem c8_strictPartial_witness :
    (0 < c8Nodes.length ∧ hasPos (nodeAt c8Nodes 0) = true) ∧
    ((applyStrictLayout true c8Nodes c8Edges).get? 0).map (fun m => (m.x, m.y)) =
      some ((nodeAt c8Nodes 0).x, (nodeAt c8Nodes 0).y) :=
  ⟨⟨by decide, by decide⟩,
   c8_strictPartial c8Nodes c8Edges 0 (by decide) (by decide)⟩

end AetherFS
